import Mathlib

/-!
Verification of the authkit repository: shallow embeddings of the
rate limiters (in-memory and Redis-backed), the SIWS challenge message
construction/parsing, the OIDC discovery and ID-token verification
logic, the PHC password-hash encoding, and the refresh-session rotation
state machine, together with theorems settling the specification claims.
-/

set_option maxHeartbeats 1000000
set_option maxRecDepth 4096

/-! # Association-list maps (models of Go maps used by the limiters) -/

namespace AuthKit

/-- Lookup in an association list, modelling Go map indexing `m[k]`. -/
def lookupA {α : Type} : List (String × α) → String → Option α
  | [], _ => none
  | (k, v) :: rest, key => if k = key then some v else lookupA rest key

/-- Insert/overwrite in an association list, modelling Go `m[k] = v`. -/
def setA {α : Type} : List (String × α) → String → α → List (String × α)
  | [], key, v => [(key, v)]
  | (k, w) :: rest, key, v =>
      if k = key then (k, v) :: rest else (k, w) :: setA rest key v

/-- Delete from an association list, modelling Go `delete(m, k)`. -/
def eraseA {α : Type} : List (String × α) → String → List (String × α)
  | [], _ => []
  | (k, w) :: rest, key => if k = key then rest else (k, w) :: eraseA rest key

end AuthKit

/-! # Rate limiters

Embedding of `memorylimiter` (src/password/password.go, second file in the
bundle) and `redislimiter` (src/ratelimit/redis/limiter.go).  Timestamps are
Unix milliseconds modelled as `Int` (Go `int64`; real values stay far below
2^63 so overflow is immaterial and not modelled). -/

namespace RateLimit

open AuthKit

/-- `Limit` (both packages): window in milliseconds (`Window.Milliseconds()`),
max count. -/
structure Limit where
  limit : Int
  window : Int
deriving DecidableEq, Repr

/-- `(l *Limiter).get(bucket)`: configured limit, else `"default"`, else
`{Limit: 100, Window: time.Minute}` (the boolean result is ignored by
`AllowNamed`). Shared verbatim by both backends. -/
def getLimit (limits : List (String × Limit)) (bucket : String) : Limit :=
  match lookupA limits bucket with
  | some v => v
  | none =>
      match lookupA limits "default" with
      | some v => v
      | none => ⟨100, 60000⟩

/-- In-memory limiter state: per-bucket limits plus the
`map[string]*bucketState` of timestamp lists (newest last). -/
structure MemLimiter where
  limits : List (String × Limit)
  buckets : List (String × List Int)
deriving DecidableEq, Repr

/-- Result of one `AllowNamed` call: (allowed, error). Go returns
`(bool, error)`; `none` models a nil error. -/
abbrev ARes := Bool × Option String

/-- Core of `memorylimiter.Limiter.AllowNamed` on a non-nil receiver.
Mirrors the source: empty bucket/key errors; prune the longest prefix of
timestamps `< now - window` (the Go loop advances `pruneIdx` while
`ts[pruneIdx] < windowStart`); deny without recording when
`len(ts) >= lim.Limit`, deleting the entry if it became empty; otherwise
append `now` and allow. The transient insertion of an empty bucketState
before the branch has no observable effect on the final map and is folded
into the final update. -/
def memAllowNamed (l : MemLimiter) (bucket key : String) (nowMs : Int) :
    ARes × MemLimiter :=
  if bucket = "" ∨ key = "" then ((false, some "bucket and key required"), l)
  else
    let lim := getLimit l.limits bucket
    let windowStart := nowMs - lim.window
    let limitKey := key ++ ":" ++ bucket
    let ts0 := (lookupA l.buckets limitKey).getD []
    let ts := ts0.dropWhile (fun t => decide (t < windowStart))
    if (ts.length : Int) ≥ lim.limit then
      let buckets' := if ts.isEmpty then eraseA l.buckets limitKey
                      else setA l.buckets limitKey ts
      ((false, none), ⟨l.limits, buckets'⟩)
    else
      ((true, none), ⟨l.limits, setA l.buckets limitKey (ts ++ [nowMs])⟩)

/-- `memorylimiter.Limiter.AllowNamed` including the nil-receiver guard
(`if l == nil { return true, nil }`): a nil receiver is modelled as `none`. -/
def memAllowNamedO (l : Option MemLimiter) (bucket key : String) (nowMs : Int) :
    ARes × Option MemLimiter :=
  match l with
  | none => ((true, none), none)
  | some st =>
      let r := memAllowNamed st bucket key nowMs
      (r.1, some r.2)

/-- Redis-backed limiter: configuration only; the ZSET data lives in the
(modelled) Redis store. `hasClient` models `l.rdb != nil`. -/
structure RedisLimiter where
  hasClient : Bool
  limits : List (String × Limit)
deriving DecidableEq, Repr

/-- `ZADD key {Score: now, Member: now}`: members are deduplicated by value,
so adding an already-present timestamp only rewrites its (identical) score. -/
def zadd (s : List Int) (n : Int) : List Int :=
  if n ∈ s then s else s ++ [n]

/-- `ZREMRANGEBYSCORE key "0" start`: removes members whose score lies in the
inclusive range [0, start]. -/
def ztrim (s : List Int) (start : Int) : List Int :=
  s.filter (fun t => !(decide (0 ≤ t) && decide (t ≤ start)))

/-- Core of `redislimiter.Limiter.AllowNamed` on a usable client, acting on
the ZSET `s` stored at `key:bucket`. Mirrors the transaction: ZADD now,
ZREMRANGEBYSCORE [0, now-window], ZCARD; deny and ZREM the just-added member
when the count exceeds the limit. The trailing `EXPIRE window+1s` only drops
keys whose members would all be trimmed on the next touch anyway, so it is
decision-invisible and not modelled. -/
def redisStep (lim : Limit) (s : List Int) (nowMs : Int) : Bool × List Int :=
  let start := nowMs - lim.window
  let s1 := ztrim (zadd s nowMs) start
  if (s1.length : Int) > lim.limit then (false, s1.erase nowMs) else (true, s1)

/-- `redislimiter.Limiter.AllowNamed` with its guards. The receiver is
`none` for a nil limiter; `zs` is the modelled Redis keyspace. -/
def redisAllowNamed (l : Option RedisLimiter) (zs : List (String × List Int))
    (bucket key : String) (nowMs : Int) :
    ARes × List (String × List Int) :=
  match l with
  | none => ((true, none), zs)
  | some rl =>
      if rl.hasClient = false then ((true, none), zs)
      else if bucket = "" ∨ key = "" then
        ((false, some "bucket and key required"), zs)
      else
        let lim := getLimit rl.limits bucket
        let limitKey := key ++ ":" ++ bucket
        let s := (lookupA zs limitKey).getD []
        let r := redisStep lim s nowMs
        ((r.1, none), setA zs limitKey r.2)

/-- Sequential decisions of the in-memory limiter for a fixed (bucket, key). -/
def memRunOn (bucket key : String) (st : MemLimiter) : List Int → List Bool
  | [] => []
  | t :: ts =>
      let r := memAllowNamed st bucket key t
      r.1.1 :: memRunOn bucket key r.2 ts

/-- The C2 scenario's limiter: bucket "login" configured with limit 5,
window 60 s, and an initially empty bucket map. -/
def loginLimiter : MemLimiter := ⟨[("login", ⟨5, 60000⟩)], []⟩

/-- Sequential decisions of the Redis-backed limiter for a fixed
(bucket, key), threading the modelled ZSET store. -/
def redisRunOn (bucket key : String) (rl : RedisLimiter)
    (zs : List (String × List Int)) : List Int → List Bool
  | [] => []
  | t :: ts =>
      let r := redisAllowNamed (some rl) zs bucket key t
      r.1.1 :: redisRunOn bucket key rl r.2 ts

/-- The timestamp list recorded for a limiter key (empty when absent),
the view Go code gets from `l.buckets[limitKey]`. -/
def entryOf (bkts : List (String × List Int)) (lk : String) : List Int :=
  (AuthKit.lookupA bkts lk).getD []

/-- The in-memory limiter's pruned timestamp list for one call: the stored
entry with the stale prefix (`ts[i] < now - window`) removed. -/
def prunedOf (L : List (String × Limit)) (B : List (String × List Int))
    (bucket key : String) (now : Int) : List Int :=
  (entryOf B (key ++ ":" ++ bucket)).dropWhile
    (fun t => decide (t < now - (getLimit L bucket).window))

end RateLimit

/-! # OIDC relying party (src/unnamed/part_006, src/oidc/verifier.go,
and the oidckit `DefaultExchanger` bundled in src/lang/lang.go) -/

namespace Oidc

/-- Fields of the provider discovery document read by `discoverOIDC`. -/
structure DiscoveryDoc where
  issuer : String
  authorizationEndpoint : String
  tokenEndpoint : String
  jwksURI : String
deriving DecidableEq, Repr

/-- `strings.TrimRight(s, "/")`: drop trailing slash characters. -/
def trimRightSlash (s : String) : String :=
  String.mk (s.data.rdropWhile (fun c => decide (c = '/')))

/-- Validation performed by `discoverOIDC` after a successful HTTP fetch and
JSON decode (both external): `issuer` is the already-trimmed configured
issuer passed in by `NewRelyingPartyOIDC`, `doc` the decoded document. -/
def discoverOIDCCheck (issuer : String) (doc : DiscoveryDoc) :
    Except String DiscoveryDoc :=
  let discoveredIssuer := trimRightSlash doc.issuer
  if discoveredIssuer ≠ "" ∧ discoveredIssuer ≠ issuer then
    Except.error ("oidc: issuer mismatch: " ++ doc.issuer)
  else if doc.authorizationEndpoint = "" ∨ doc.tokenEndpoint = "" ∨ doc.jwksURI = ""
  then Except.error "oidc: discovery missing endpoints"
  else Except.ok doc

/-- `RelyingParty` with its oauth2.Config flattened in. -/
structure RelyingParty where
  issuer : String
  clientID : String
  jwksURL : String
  clientSecret : String
  redirectURI : String
  scopes : List String
  authURL : String
  tokenURL : String
deriving DecidableEq, Repr

/-- `NewRelyingPartyOIDC`: trims the configured issuer, rejects an empty one,
runs discovery (network outcome passed as `fetched`, then the source's
validation), and assembles the relying party, falling back to the configured
issuer when the document reports none. -/
def newRelyingPartyOIDC (issuer clientID clientSecret redirectURI : String)
    (scopes : List String) (fetched : Except String DiscoveryDoc) :
    Except String RelyingParty :=
  let trimmedIssuer := trimRightSlash issuer
  if trimmedIssuer = "" then Except.error "oidc: issuer is empty"
  else
    match fetched with
    | Except.error e => Except.error e
    | Except.ok doc0 =>
        match discoverOIDCCheck trimmedIssuer doc0 with
        | Except.error e => Except.error e
        | Except.ok doc =>
            let effectiveIssuer := if doc.issuer = "" then issuer else doc.issuer
            Except.ok ⟨effectiveIssuer, clientID, doc.jwksURI, clientSecret,
              redirectURI, scopes, doc.authorizationEndpoint, doc.tokenEndpoint⟩

/-- Whether an Except is an error. -/
def isErr {ε α : Type} : Except ε α → Bool
  | Except.error _ => true
  | Except.ok _ => false

/-- Abstract decoded ID token: payload claims plus the key that produced its
signature and the outcome of its time-window checks.  The claim values the
source reads through type assertions are modelled as typed options (the
string-typed "email_verified" coercion branch is folded into the Bool). -/
structure IDToken where
  signedByKey : String
  issuer : String
  audience : List String
  expValid : Bool
  nonce : Option String
  subject : String
  email : Option String
  emailVerified : Option Bool
  name : Option String
  preferredUsername : Option String
deriving DecidableEq, Repr

/-- Modelled from the jwx library semantics of `jwt.ParseString` with
`WithKeySet`, `WithValidate(true)`, `WithIssuer`, `WithAudience` (external
dependency, not repository code): parsing succeeds iff the signature
verifies against a key of the set, the time-window checks pass, the issuer
matches, and the audience contains the expected value. -/
def jwtParseString (keySet : List String) (issuer audience : String)
    (tok : IDToken) : Except String IDToken :=
  if tok.signedByKey ∈ keySet ∧ tok.expValid = true ∧ tok.issuer = issuer ∧
      audience ∈ tok.audience
  then Except.ok tok else Except.error "jwt: verification failed"

/-- `IDTokenVerifier` (src/oidc/verifier.go); `nonce = none` models a nil
nonce callback, `some s` a callback returning `s` (as installed by
`WithNonce` in `DefaultExchanger`). -/
structure IDTokenVerifier where
  issuer : String
  clientID : String
  keySet : Option (List String)
  nonce : Option String
deriving DecidableEq, Repr

/-- `IDTokenClaims` extracted by `VerifyIDToken` (Go zero values for absent
string claims). -/
structure IDTokenClaims where
  subject : String
  email : String
  emailVerified : Option Bool
  name : String
  preferredUsername : String
deriving DecidableEq, Repr

/-- `VerifyIDToken` (src/oidc/verifier.go): nil-verifier and nil-key-set
guards, library parse (signature, validity window, issuer, audience), then
the nonce check — skipped when the expected nonce is empty — then claim
extraction. -/
def verifyIDToken (tok : IDToken) (v : Option IDTokenVerifier) :
    Except String IDTokenClaims :=
  match v with
  | none => Except.error "oidc: missing verifier"
  | some v =>
      match v.keySet with
      | none => Except.error "oidc: missing key set"
      | some ks =>
          match jwtParseString ks v.issuer v.clientID tok with
          | Except.error e => Except.error e
          | Except.ok token =>
              let nonceCheck : Except String Unit :=
                match v.nonce with
                | none => Except.ok ()
                | some expected =>
                    if expected ≠ "" then
                      match token.nonce with
                      | none => Except.error "oidc: missing nonce"
                      | some n =>
                          if n ≠ expected then Except.error "oidc: nonce mismatch"
                          else Except.ok ()
                    else Except.ok ()
              match nonceCheck with
              | Except.error e => Except.error e
              | Except.ok _ =>
                  Except.ok ⟨token.subject, token.email.getD "",
                    token.emailVerified, token.name.getD "",
                    token.preferredUsername.getD ""⟩

/-- `strptr`: nil for the empty string. -/
def strptr (s : String) : Option String := if s = "" then none else some s

/-- `Claims` returned by the exchanger (RawIDToken kept as the token value
instead of its wire encoding). -/
structure Claims where
  subject : String
  email : Option String
  emailVerified : Option Bool
  name : Option String
  preferredUsername : Option String
  rawIDToken : IDToken
deriving DecidableEq, Repr

/-- `DefaultExchanger` (oidckit, bundled in src/lang/lang.go): the OAuth2
code exchange and the JWKS fetch are network calls whose outcomes are passed
in (`exchange` yields the optional id_token of the token response).  After a
successful exchange the ID token is re-verified by `verifyIDToken` with a
verifier carrying the relying party's issuer, client id, fetched key set and
the request-bound nonce. -/
def defaultExchanger (rp : RelyingParty) (provider : String)
    (exchange : Except String (Option IDToken))
    (keySet : Except String (List String)) (nonce : String) :
    Except String Claims :=
  match exchange with
  | Except.error _ => Except.error ("token exchange failed for " ++ provider)
  | Except.ok none => Except.error "no id_token in response"
  | Except.ok (some rawIDToken) =>
      match keySet with
      | Except.error _ => Except.error ("jwks fetch failed for " ++ provider)
      | Except.ok ks =>
          let customVerifier : IDTokenVerifier :=
            ⟨rp.issuer, rp.clientID, some ks, some nonce⟩
          match verifyIDToken rawIDToken (some customVerifier) with
          | Except.error _ =>
              Except.error ("id_token verification with nonce failed for " ++ provider)
          | Except.ok idt =>
              let email := idt.email
              let ev := idt.emailVerified.getD false
              let name := idt.name
              let pu : Option String :=
                if idt.preferredUsername ≠ "" then some idt.preferredUsername else none
              Except.ok ⟨idt.subject, strptr email, some ev, strptr name, pu,
                rawIDToken⟩

end Oidc

/-! # Refresh-session rotation

The rotation logic itself is not among the files under src/ — only the
`profiles.refresh_sessions` schema (src/unnamed/part_013) with its partial
unique indexes on `current_token_hash` / `previous_token_hash` of
non-revoked sessions.  The state machine below is modelled from the spec. -/

namespace Sessions

/-- Modelled from the spec: a `profiles.refresh_sessions` row (subject,
issuer and timestamps omitted; revocation collapsed to a flag; fingerprints
are the stored token hashes). -/
structure Session where
  id : Nat
  familyId : Nat
  currentHash : Nat
  previousHash : Option Nat
  revoked : Bool
deriving DecidableEq, Repr

/-- Rotation outcome; `reuseDetected` is the distinct reuse error of the
spec's error model. -/
inductive RotateResult where
  | ok (newCurrent : Nat)
  | reuseDetected
  | invalid
deriving DecidableEq, Repr

/-- Modelled from the spec (§4.2, Refresh Session Manager): the rotation
logic is absent from src/, so `rotate` follows the spec's words.  The
presented token carries its family id and fingerprint.  A match on a
non-revoked session's current slot atomically shifts current→previous and
installs the fresh fingerprint; a match on the retained previous slot is
honored once more without advancing the current fingerprint (consuming the
slot, per the conservative reading of §9); any other fingerprint is reuse:
every session of the family is revoked and the distinct reuse error is
returned. -/
def rotate (store : List Session) (famId fp newFp : Nat) :
    RotateResult × List Session :=
  match store.find? (fun s => !s.revoked && decide (s.familyId = famId) &&
      decide (s.currentHash = fp)) with
  | some s =>
      (RotateResult.ok newFp,
       store.map (fun t => if t.id = s.id then
         { t with currentHash := newFp, previousHash := some fp } else t))
  | none =>
      match store.find? (fun s => !s.revoked && decide (s.familyId = famId) &&
          decide (s.previousHash = some fp)) with
      | some s =>
          (RotateResult.ok s.currentHash,
           store.map (fun t => if t.id = s.id then
             { t with previousHash := none } else t))
      | none =>
          if store.any (fun s => decide (s.familyId = famId)) then
            (RotateResult.reuseDetected,
             store.map (fun t => if t.familyId = famId then
               { t with revoked := true } else t))
          else (RotateResult.invalid, store)

end Sessions

/-! # Rune-list string utilities

Go strings are modelled as `List Char` where character-level reasoning is
needed (SIWS messages, PHC hashes).  `splitOnChar` is `strings.Split` for a
single-character separator; `joinChar` its inverse. -/

namespace StrList

/-- `strings.Split(s, sep)` for a one-character separator: n separators
yield n+1 (possibly empty) pieces. -/
def splitOnChar (sep : Char) : List Char → List (List Char)
  | [] => [[]]
  | c :: cs =>
      if c = sep then [] :: splitOnChar sep cs
      else
        match splitOnChar sep cs with
        | [] => [[c]]
        | l :: ls => (c :: l) :: ls

/-- Join pieces with the separator (inverse of `splitOnChar`). -/
def joinChar (sep : Char) : List (List Char) → List Char
  | [] => []
  | [l] => l
  | l :: ls => l ++ sep :: joinChar sep ls

end StrList

/-! # Password hashing (src/password/password.go)

Bytes are `Nat` with explicit `< 256` bounds where the encoding depends on
them.  The Argon2id key derivation itself is the external
`golang.org/x/crypto/argon2` primitive; it enters the theorems as an
arbitrary function parameter constrained only by its documented output
length, which is exactly what the source relies on. -/

namespace Pwd

open StrList

/-- `Params` (uint32/uint8 fields as `Nat`). -/
structure Params where
  time : Nat
  mem : Nat
  threads : Nat
  saltLen : Nat
  keyLen : Nat
deriving DecidableEq, Repr

/-- `DefaultParams()`: time 1, memory 64*1024 KiB, 1 thread, 16-byte salt,
32-byte key. -/
def defaultParams : Params := ⟨1, 64 * 1024, 1, 16, 32⟩

/-- The standard base64 alphabet used by `base64.RawStdEncoding`. -/
def b64chars : List Char :=
  "ABCDEFGHIJKLMNOPQRSTUVWXYZabcdefghijklmnopqrstuvwxyz0123456789+/".toList

/-- Character for a 6-bit group. -/
def b64chr (n : Nat) : Char := b64chars.getD n 'A'

/-- Index of an alphabet character (none for foreign characters). -/
def b64val (c : Char) : Option Nat :=
  if c ∈ b64chars then some (b64chars.indexOf c) else none

/-- `base64.RawStdEncoding.EncodeToString` over byte lists: 3-byte groups
become 4 characters; a 1- or 2-byte remainder becomes 2 or 3 characters and
no padding is emitted. -/
def b64encode : List Nat → List Char
  | [] => []
  | [b1] => [b64chr (b1 / 4), b64chr (b1 % 4 * 16)]
  | [b1, b2] => [b64chr (b1 / 4), b64chr (b1 % 4 * 16 + b2 / 16),
      b64chr (b2 % 16 * 4)]
  | b1 :: b2 :: b3 :: rest =>
      b64chr (b1 / 4) :: b64chr (b1 % 4 * 16 + b2 / 16) ::
        b64chr (b2 % 16 * 4 + b3 / 64) :: b64chr (b3 % 64) :: b64encode rest

/-- `base64.RawStdEncoding.DecodeString`: inverse grouping; rejects foreign
characters, a lone trailing character, and (like Go) nonzero unused trailing
bits. -/
def b64decode : List Char → Option (List Nat)
  | [] => some []
  | [_] => none
  | [c1, c2] => do
      let v1 ← b64val c1
      let v2 ← b64val c2
      if v2 % 16 = 0 then some [v1 * 4 + v2 / 16] else none
  | [c1, c2, c3] => do
      let v1 ← b64val c1
      let v2 ← b64val c2
      let v3 ← b64val c3
      if v3 % 4 = 0 then some [v1 * 4 + v2 / 16, v2 % 16 * 16 + v3 / 4]
      else none
  | c1 :: c2 :: c3 :: c4 :: rest => do
      let v1 ← b64val c1
      let v2 ← b64val c2
      let v3 ← b64val c3
      let v4 ← b64val c4
      let ds ← b64decode rest
      some ((v1 * 4 + v2 / 16) :: (v2 % 16 * 16 + v3 / 4) :: (v3 % 4 * 64 + v4) :: ds)

/-- ASCII decimal digit for n < 10. -/
def digitChr (n : Nat) : Char := Char.ofNat (48 + n)

/-- `%d` formatting, via structural fuel recursion (so the kernel can
evaluate it); `n + 1` units of fuel always suffice. -/
def natDigitsAux (fuel n : Nat) : List Char :=
  match fuel with
  | 0 => []
  | fuel + 1 =>
      if n < 10 then [digitChr n]
      else natDigitsAux fuel (n / 10) ++ [digitChr (n % 10)]

/-- `%d` formatting of a natural number. -/
def natDigits (n : Nat) : List Char := natDigitsAux (n + 1) n

/-- ASCII digit test used by the `%d` verb. -/
def isDigitB (c : Char) : Bool := decide (48 ≤ c.toNat ∧ c.toNat ≤ 57)

def digitVal (c : Char) : Nat := c.toNat - 48

/-- Numeric value of a digit string. -/
def parseNat (cs : List Char) : Nat :=
  cs.foldl (fun acc c => acc * 10 + digitVal c) 0

/-- Consume an expected literal (as `Sscanf` does for non-verb bytes). -/
def dropLit (lit s : List Char) : Option (List Char) :=
  if lit.isPrefixOf s then some (s.drop lit.length) else none

/-- Models `fmt.Sscanf(s, "m=%d,t=%d,p=%d", &m, &t, &par)`: each `%d` takes
a maximal nonempty digit run, literals must match, trailing input is
ignored. Returns (m, t, par) in scan order. -/
def scanParams (s : List Char) : Option (Nat × Nat × Nat) :=
  match dropLit ('m' :: '=' :: []) s with
  | none => none
  | some r1 =>
      let d1 := r1.takeWhile isDigitB
      let r2 := r1.dropWhile isDigitB
      if d1 = [] then none
      else
        match dropLit (',' :: 't' :: '=' :: []) r2 with
        | none => none
        | some r3 =>
            let d2 := r3.takeWhile isDigitB
            let r4 := r3.dropWhile isDigitB
            if d2 = [] then none
            else
              match dropLit (',' :: 'p' :: '=' :: []) r4 with
              | none => none
              | some r5 =>
                  let d3 := r5.takeWhile isDigitB
                  if d3 = [] then none
                  else some (parseNat d1, parseNat d2, parseNat d3)

/-- `phcEncode`: `$argon2id$v=19$m=<mem>,t=<time>,p=<threads>$<salt>$<sum>`. -/
def phcEncode (p : Params) (salt sum : List Nat) : List Char :=
  ('$' :: "argon2id".toList) ++ ('$' :: "v=19".toList) ++
    ('$' :: ('m' :: '=' :: natDigits p.mem ++ ',' :: 't' :: '=' :: natDigits p.time
      ++ ',' :: 'p' :: '=' :: natDigits p.threads)) ++
    ('$' :: b64encode salt) ++ ('$' :: b64encode sum)

/-- `phcDecode`: split on `$`, require 6 parts with `argon2id` tag, scan the
parameter segment, base64-decode salt and sum; `uint8(par)` truncates the
thread count modulo 256.  (The `v=19` segment is not inspected, as in the
source.) -/
def phcDecode (s : List Char) : Option (Params × List Nat × List Nat) :=
  let parts := splitOnChar '$' s
  if parts.length = 6 ∧ parts.getD 1 [] = "argon2id".toList then
    match scanParams (parts.getD 3 []) with
    | none => none
    | some (m, t, par) =>
        match b64decode (parts.getD 4 []) with
        | none => none
        | some salt =>
            match b64decode (parts.getD 5 []) with
            | none => none
            | some sum =>
                some (⟨t, m, par % 256, salt.length, sum.length⟩, salt, sum)
  else none

/-- The type of the external `argon2.IDKey` primitive:
password, salt, time, memory, threads, keyLen ↦ derived key. -/
abbrev IDKeyFun := List Nat → List Nat → Nat → Nat → Nat → Nat → List Nat

/-- `HashArgon2id` with the randomly drawn salt externalized (the only use
of `crypto/rand` in the source): derive with the default parameters and
PHC-encode. -/
def hashArgon2idWith (idKey : IDKeyFun) (password salt : List Nat) : List Char :=
  let p := defaultParams
  phcEncode p salt (idKey password salt p.time p.mem p.threads p.keyLen)

/-- `VerifyArgon2id`: decode, re-derive with the decoded parameters and the
stored digest's length, constant-time compare.  `none` models the error
return of a failed decode. -/
def verifyArgon2idWith (idKey : IDKeyFun) (encoded : List Char)
    (password : List Nat) : Option Bool :=
  match phcDecode encoded with
  | none => none
  | some (p, salt, sum) =>
      let dk := idKey password salt p.time p.mem p.threads sum.length
      if dk.length ≠ sum.length then some false
      else if dk = sum then some true else some false

end Pwd

/-! # SIWS challenge messages (src/unnamed/part_001, package siws)

Messages are rune lists; `ConstructMessage` appends the exact byte layout of
the source's strings.Builder writes, `ParseMessage` mirrors the line split,
header regex, statement block, field scan and field loop.  Field labels are
spelled as explicit character lists so line-level reasoning can unfold
them. -/

namespace Siws

open StrList

abbrev Str := List Char

/-- `SignInInput` as pinned down by its uses in ConstructMessage and
ParseMessage (string fields, optional pointers, resource slice). -/
structure SignInInput where
  domain : Str
  address : Str
  statement : Option Str
  uri : Option Str
  version : Option Str
  chainID : Option Str
  nonce : Str
  issuedAt : Str
  expirationTime : Option Str
  notBefore : Option Str
  requestID : Option Str
  resources : List Str
deriving DecidableEq, Repr

/-- Go's zero-valued `var input SignInInput`. -/
def emptyInput : SignInInput :=
  ⟨[], [], none, none, none, none, [], [], none, none, none, []⟩

/-- The fixed header text after the domain. -/
def headerSuffix : Str := " wants you to sign in with your Solana account:".toList

def lblURI : Str := ['U', 'R', 'I', ':', ' ']
def lblVer : Str := ['V', 'e', 'r', 's', 'i', 'o', 'n', ':', ' ']
def lblChain : Str := ['C', 'h', 'a', 'i', 'n', ' ', 'I', 'D', ':', ' ']
def lblNonce : Str := ['N', 'o', 'n', 'c', 'e', ':', ' ']
def lblIssued : Str := ['I', 's', 's', 'u', 'e', 'd', ' ', 'A', 't', ':', ' ']
def lblExp : Str :=
  ['E', 'x', 'p', 'i', 'r', 'a', 't', 'i', 'o', 'n', ' ', 'T', 'i', 'm', 'e', ':', ' ']
def lblNB : Str := ['N', 'o', 't', ' ', 'B', 'e', 'f', 'o', 'r', 'e', ':', ' ']
def lblReqID : Str := ['R', 'e', 'q', 'u', 'e', 's', 't', ' ', 'I', 'D', ':', ' ']
def lblRes : Str := ['R', 'e', 's', 'o', 'u', 'r', 'c', 'e', 's', ':']
def lblDash : Str := ['-', ' ']

def scanURI : Str := ['U', 'R', 'I', ':']
def scanVer : Str := ['V', 'e', 'r', 's', 'i', 'o', 'n', ':']
def scanChain : Str := ['C', 'h', 'a', 'i', 'n', ' ', 'I', 'D', ':']
def scanNonce : Str := ['N', 'o', 'n', 'c', 'e', ':']
def scanIssued : Str := ['I', 's', 's', 'u', 'e', 'd', ' ', 'A', 't', ':']

/-- `unicode.IsSpace` restricted to the Latin-1 range actually reachable in
these messages (space, tab, newline, vertical tab, form feed, carriage
return, NEL, NBSP); wider Unicode space classes are not modelled. -/
def isSpaceB (c : Char) : Bool :=
  decide (c = ' ' ∨ c = '\t' ∨ c = '\n' ∨ c.toNat = 11 ∨ c.toNat = 12 ∨
    c = '\r' ∨ c.toNat = 133 ∨ c.toNat = 160)

/-- `strings.TrimSpace`. -/
def trimSpace (s : Str) : Str := (s.dropWhile isSpaceB).rdropWhile isSpaceB

/-- One optional `\nLabel: value` chunk of ConstructMessage (skipped when
the pointer is nil or the value empty). -/
def optFieldFlat (lbl : Str) (v : Option Str) : Str :=
  match v with
  | none => []
  | some s => if s = [] then [] else '\n' :: (lbl ++ s)

/-- `ConstructMessage`: header line, address, optional blank-line-prefixed
statement, a newline opening the fields section, then each present field on
its own line, with a trailing bulleted resource list. -/
def constructMessage (i : SignInInput) : Str :=
  i.domain ++ headerSuffix ++ '\n' :: i.address
  ++ (match i.statement with
      | some s => if s = [] then [] else '\n' :: '\n' :: s
      | none => [])
  ++ ['\n']
  ++ optFieldFlat lblURI i.uri
  ++ optFieldFlat lblVer i.version
  ++ optFieldFlat lblChain i.chainID
  ++ '\n' :: (lblNonce ++ i.nonce)
  ++ '\n' :: (lblIssued ++ i.issuedAt)
  ++ optFieldFlat lblExp i.expirationTime
  ++ optFieldFlat lblNB i.notBefore
  ++ optFieldFlat lblReqID i.requestID
  ++ (if i.resources = [] then []
      else '\n' :: (lblRes ++
        (i.resources.map (fun r => '\n' :: (lblDash ++ r))).flatten))

/-- The header regex `^(.+) wants you to sign in with your Solana account:$`
applied to a line: since `.` excludes the newline and the line contains
none, a greedy anchored match succeeds exactly when the line ends with the
literal suffix and has a nonempty remainder, which is the capture. -/
def parseHeader (line : Str) : Option Str :=
  if headerSuffix.isSuffixOf line ∧ headerSuffix.length < line.length then
    some (line.take (line.length - headerSuffix.length))
  else none

/-- The fields-start scan predicate: the trimmed line starts with one of
`URI:`, `Version:`, `Chain ID:`, `Nonce:`, `Issued At:`. -/
def isFieldStart (line : Str) : Bool :=
  let t := trimSpace line
  scanURI.isPrefixOf t || scanVer.isPrefixOf t || scanChain.isPrefixOf t ||
    scanNonce.isPrefixOf t || scanIssued.isPrefixOf t

/-- Index (relative to `lines[2:]`) of the first field line.  Go's
`fieldsStart` is this plus 2, with -1 (here `none`) when absent. -/
def findFieldsStart : List Str → Option Nat
  | [] => none
  | l :: rest =>
      if isFieldStart l then some 0
      else (findFieldsStart rest).map (· + 1)

/-- Statement extraction from `lines[2:fieldsStart]`: skip leading
blank-trimmed lines, rejoin, trim, keep if nonempty. -/
def extractStatement (region : List Str) : Option Str :=
  let statementLines := region.dropWhile (fun l => decide (trimSpace l = []))
  if statementLines.length > 0 then
    let statement := trimSpace (joinChar '\n' statementLines)
    if statement = [] then none else some statement
  else none

/-- The field loop from `fieldsStart` with its `inResources` flag and
collected resources; prefix checks and TrimPrefix drops follow the source's
order exactly. -/
def parseFields : List Str → Bool → List Str → SignInInput → SignInInput × List Str
  | [], _, res, inp => (inp, res)
  | line :: rest, inRes, res, inp =>
      if lblDash.isPrefixOf line ∧ inRes = true then
        parseFields rest inRes (res ++ [line.drop lblDash.length]) inp
      else if lblRes.isPrefixOf line then
        parseFields rest true res inp
      else if lblURI.isPrefixOf line then
        parseFields rest false res { inp with uri := some (line.drop lblURI.length) }
      else if lblVer.isPrefixOf line then
        parseFields rest false res { inp with version := some (line.drop lblVer.length) }
      else if lblChain.isPrefixOf line then
        parseFields rest false res
          { inp with chainID := some (line.drop lblChain.length) }
      else if lblNonce.isPrefixOf line then
        parseFields rest false res { inp with nonce := line.drop lblNonce.length }
      else if lblIssued.isPrefixOf line then
        parseFields rest false res { inp with issuedAt := line.drop lblIssued.length }
      else if lblExp.isPrefixOf line then
        parseFields rest false res
          { inp with expirationTime := some (line.drop lblExp.length) }
      else if lblNB.isPrefixOf line then
        parseFields rest false res
          { inp with notBefore := some (line.drop lblNB.length) }
      else if lblReqID.isPrefixOf line then
        parseFields rest false res
          { inp with requestID := some (line.drop lblReqID.length) }
      else parseFields rest false res inp

/-- `ParseMessage`. -/
def parseMessage (message : Str) : Except Str SignInInput :=
  let lines := splitOnChar '\n' message
  if lines.length < 2 then Except.error "message too short".toList
  else
    match parseHeader (lines.getD 0 []) with
    | none => Except.error "invalid header format".toList
    | some domain =>
        let address := trimSpace (lines.getD 1 [])
        if address = [] then Except.error "missing address".toList
        else
          let base := { emptyInput with domain := domain, address := address }
          match findFieldsStart (lines.drop 2) with
          | none => Except.ok base
          | some j =>
              let base2 :=
                if 0 < j then
                  match extractStatement ((lines.drop 2).take j) with
                  | some st => { base with statement := some st }
                  | none => base
                else base
              let r := parseFields ((lines.drop 2).drop j) false [] base2
              Except.ok (if r.2.length > 0 then { r.1 with resources := r.2 } else r.1)

/-- No-newline test for a field value. -/
def noNL (s : Str) : Bool := !s.contains '\n'

/-- Well-formedness of an optional field: absent, or nonempty without
newlines. -/
def validOpt (o : Option Str) : Bool :=
  match o with
  | none => true
  | some v => decide (v ≠ []) && noNL v

/-- Well-formedness of the statement: absent, or nonempty, trim-invariant,
and no statement line (after trimming) starts with a fields-scan label. -/
def validStatement (o : Option Str) : Bool :=
  match o with
  | none => true
  | some s => decide (s ≠ []) && decide (trimSpace s = s) &&
      (splitOnChar '\n' s).all (fun l => !isFieldStart l)

/-- Well-formed structured input: the amended validity for the round-trip
(nonempty newline-free required fields, trim-invariant address, optional
fields nonempty and newline-free when present, statement as above,
newline-free resources). -/
def validInput (i : SignInInput) : Bool :=
  decide (i.domain ≠ []) && noNL i.domain &&
  decide (i.address ≠ []) && noNL i.address &&
    decide (trimSpace i.address = i.address) &&
  decide (i.nonce ≠ []) && noNL i.nonce &&
  decide (i.issuedAt ≠ []) && noNL i.issuedAt &&
  validOpt i.uri && validOpt i.version && validOpt i.chainID &&
  validOpt i.expirationTime && validOpt i.notBefore && validOpt i.requestID &&
  validStatement i.statement &&
  i.resources.all noNL

/-- The optional field's contribution as a line list. -/
def optLines (lbl : Str) (v : Option Str) : List Str :=
  match v with
  | none => []
  | some s => if s = [] then [] else [lbl ++ s]

/-- The field-section lines of a constructed message (right-nested so the
field loop can be peeled segment by segment). -/
def fieldLines (i : SignInInput) : List Str :=
  optLines lblURI i.uri ++ (optLines lblVer i.version ++
    (optLines lblChain i.chainID ++
      ((lblNonce ++ i.nonce) :: (lblIssued ++ i.issuedAt) ::
        (optLines lblExp i.expirationTime ++ (optLines lblNB i.notBefore ++
          (optLines lblReqID i.requestID ++
            (if i.resources = [] then []
             else lblRes :: i.resources.map (fun r => lblDash ++ r))))))))

/-- The statement block of a constructed message, as lines. -/
def stmtBlock (o : Option Str) : List Str :=
  match o with
  | some s => if s = [] then [] else [] :: splitOnChar '\n' s
  | none => []

/-- Flatten a line list, preceding every line with a newline. -/
def nlJoin (ls : List Str) : Str := (ls.map (fun l => '\n' :: l)).flatten

end Siws

/-! ## Theorems -/

namespace AuthKit

theorem lookupA_setA_eq {α : Type} (m : List (String × α)) (k : String) (v : α) :
    lookupA (setA m k v) k = some v := by
  induction m with
  | nil => simp [setA, lookupA]
  | cons hd tl ih =>
      obtain ⟨k', w⟩ := hd
      by_cases h : k' = k <;> simp [setA, lookupA, h, ih]

theorem lookupA_setA_ne {α : Type} (m : List (String × α)) (k k' : String) (v : α)
    (h : k ≠ k') : lookupA (setA m k v) k' = lookupA m k' := by
  induction m with
  | nil => simp [setA, lookupA, h]
  | cons hd tl ih =>
      obtain ⟨k'', w⟩ := hd
      by_cases h2 : k'' = k
      · subst h2; simp [setA, lookupA, h]
      · simp [setA, lookupA, h2, ih]

theorem lookupA_eq_none_of_not_mem {α : Type} (m : List (String × α)) (k : String)
    (h : k ∉ m.map Prod.fst) : lookupA m k = none := by
  induction m with
  | nil => simp [lookupA]
  | cons hd tl ih =>
      obtain ⟨k', w⟩ := hd
      simp only [List.map_cons, List.mem_cons, not_or] at h
      simp only [lookupA, if_neg (fun hh : k' = k => h.1 hh.symm)]
      exact ih h.2

/-- Under the Go-map invariant (no duplicate keys), deleting a key makes
its lookup fail. -/
theorem lookupA_eraseA_eq {α : Type} (m : List (String × α)) (k : String)
    (hm : (m.map Prod.fst).Nodup) : lookupA (eraseA m k) k = none := by
  induction m with
  | nil => simp [eraseA, lookupA]
  | cons hd tl ih =>
      obtain ⟨k', w⟩ := hd
      simp only [List.map_cons, List.nodup_cons] at hm
      by_cases h : k' = k
      · subst h
        simp only [eraseA, if_pos rfl]
        exact lookupA_eq_none_of_not_mem tl k' hm.1
      · simp only [eraseA, if_neg h, lookupA, if_neg h]
        exact ih hm.2

theorem lookupA_eraseA_ne {α : Type} (m : List (String × α)) (k k' : String)
    (h : k ≠ k') : lookupA (eraseA m k) k' = lookupA m k' := by
  induction m with
  | nil => simp [eraseA, lookupA]
  | cons hd tl ih =>
      obtain ⟨k'', w⟩ := hd
      by_cases h2 : k'' = k
      · have hk : k'' ≠ k' := by rw [h2]; exact h
        simp only [eraseA, if_pos h2, lookupA, if_neg hk]
      · simp only [eraseA, if_neg h2, lookupA]
        by_cases h3 : k'' = k'
        · rw [if_pos h3, if_pos h3]
        · rw [if_neg h3, if_neg h3]; exact ih

theorem keys_setA_subset {α : Type} (m : List (String × α)) (k : String) (v : α) :
    ∀ x ∈ (setA m k v).map Prod.fst, x ∈ m.map Prod.fst ∨ x = k := by
  induction m with
  | nil =>
      intro x hx
      simp only [setA, List.map_cons, List.map_nil, List.mem_singleton] at hx
      exact Or.inr hx
  | cons hd tl ih =>
      obtain ⟨k', w⟩ := hd
      intro x hx
      by_cases h : k' = k
      · rw [show setA ((k', w) :: tl) k v = (k', v) :: tl from by
              simp only [setA, if_pos h]] at hx
        simp only [List.map_cons, List.mem_cons] at hx ⊢
        exact Or.inl hx
      · rw [show setA ((k', w) :: tl) k v = (k', w) :: setA tl k v from by
              simp only [setA, if_neg h]] at hx
        simp only [List.map_cons, List.mem_cons] at hx ⊢
        rcases hx with hx | hx
        · exact Or.inl (Or.inl hx)
        · rcases ih x hx with h2 | h2
          · exact Or.inl (Or.inr h2)
          · exact Or.inr h2

theorem nodup_keys_setA {α : Type} (m : List (String × α)) (k : String) (v : α)
    (hm : (m.map Prod.fst).Nodup) : ((setA m k v).map Prod.fst).Nodup := by
  induction m with
  | nil => simp [setA]
  | cons hd tl ih =>
      obtain ⟨k', w⟩ := hd
      simp only [List.map_cons, List.nodup_cons] at hm
      by_cases h : k' = k
      · rw [show setA ((k', w) :: tl) k v = (k', v) :: tl from by
              simp only [setA, if_pos h]]
        simp only [List.map_cons, List.nodup_cons]
        exact ⟨hm.1, hm.2⟩
      · rw [show setA ((k', w) :: tl) k v = (k', w) :: setA tl k v from by
              simp only [setA, if_neg h]]
        simp only [List.map_cons, List.nodup_cons]
        refine ⟨?_, ih hm.2⟩
        intro hmem
        rcases keys_setA_subset tl k v k' hmem with h2 | h2
        · exact hm.1 h2
        · exact h h2

theorem keys_eraseA_subset {α : Type} (m : List (String × α)) (k : String) :
    ∀ x ∈ (eraseA m k).map Prod.fst, x ∈ m.map Prod.fst := by
  induction m with
  | nil => simp [eraseA]
  | cons hd tl ih =>
      obtain ⟨k', w⟩ := hd
      intro x hx
      by_cases h : k' = k
      · rw [show eraseA ((k', w) :: tl) k = tl from by
              simp only [eraseA, if_pos h]] at hx
        simp only [List.map_cons, List.mem_cons]
        exact Or.inr hx
      · rw [show eraseA ((k', w) :: tl) k = (k', w) :: eraseA tl k from by
              simp only [eraseA, if_neg h]] at hx
        simp only [List.map_cons, List.mem_cons] at hx ⊢
        rcases hx with hx | hx
        · exact Or.inl hx
        · exact Or.inr (ih x hx)

theorem setA_setA {α : Type} (m : List (String × α)) (k : String) (v w : α) :
    setA (setA m k v) k w = setA m k w := by
  induction m with
  | nil => simp [setA]
  | cons hd tl ih =>
      obtain ⟨k', x⟩ := hd
      by_cases h : k' = k
      · rw [show setA ((k', x) :: tl) k v = (k', v) :: tl from by
              simp only [setA, if_pos h]]
        simp only [setA, if_pos h]
      · rw [show setA ((k', x) :: tl) k v = (k', x) :: setA tl k v from by
              simp only [setA, if_neg h]]
        simp only [setA, if_neg h, ih]

theorem eraseA_of_lookupA_none {α : Type} (m : List (String × α)) (k : String)
    (h : lookupA m k = none) : eraseA m k = m := by
  induction m with
  | nil => simp [eraseA]
  | cons hd tl ih =>
      obtain ⟨k', w⟩ := hd
      simp only [lookupA] at h
      by_cases h2 : k' = k
      · rw [if_pos h2] at h; cases h
      · rw [if_neg h2] at h
        simp only [eraseA, if_neg h2, ih h]

theorem nodup_keys_eraseA {α : Type} (m : List (String × α)) (k : String)
    (hm : (m.map Prod.fst).Nodup) : ((eraseA m k).map Prod.fst).Nodup := by
  induction m with
  | nil => simp [eraseA]
  | cons hd tl ih =>
      obtain ⟨k', w⟩ := hd
      simp only [List.map_cons, List.nodup_cons] at hm
      by_cases h : k' = k
      · rw [show eraseA ((k', w) :: tl) k = tl from by
              simp only [eraseA, if_pos h]]
        exact hm.2
      · rw [show eraseA ((k', w) :: tl) k = (k', w) :: eraseA tl k from by
              simp only [eraseA, if_neg h]]
        simp only [List.map_cons, List.nodup_cons]
        refine ⟨?_, ih hm.2⟩
        intro hmem
        exact hm.1 (keys_eraseA_subset tl k k' hmem)

end AuthKit

namespace RateLimit

open AuthKit

/-- Unfolding of `memAllowNamed` past the argument guard. -/
theorem memAllowNamed_step (L : List (String × Limit)) (bkts : List (String × List Int))
    (bucket key : String) (t : Int) (hb : bucket ≠ "") (hk : key ≠ "") :
    memAllowNamed ⟨L, bkts⟩ bucket key t =
      (let lim := getLimit L bucket
       let lk := key ++ ":" ++ bucket
       let ts := ((lookupA bkts lk).getD []).dropWhile
                   (fun x => decide (x < t - lim.window))
       if (ts.length : Int) ≥ lim.limit then
         ((false, none), ⟨L, if ts.isEmpty then eraseA bkts lk else setA bkts lk ts⟩)
       else ((true, none), ⟨L, setA bkts lk (ts ++ [t])⟩)) := by
  simp only [memAllowNamed]
  rw [if_neg (by simp [hb, hk])]

/-- Canonical form of an admitted in-memory call. -/
theorem memAllowNamed_allow (L : List (String × Limit)) (B : List (String × List Int))
    (bucket key : String) (now : Int) (hb : bucket ≠ "") (hk : key ≠ "")
    (hlt : ((prunedOf L B bucket key now).length : Int) < (getLimit L bucket).limit) :
    memAllowNamed ⟨L, B⟩ bucket key now =
      ((true, none), ⟨L, setA B (key ++ ":" ++ bucket)
        (prunedOf L B bucket key now ++ [now])⟩) := by
  rw [memAllowNamed_step L B bucket key now hb hk]
  simp only [prunedOf, entryOf] at hlt ⊢
  rw [if_neg (by omega)]

/-- Canonical form of a denied in-memory call. -/
theorem memAllowNamed_deny (L : List (String × Limit)) (B : List (String × List Int))
    (bucket key : String) (now : Int) (hb : bucket ≠ "") (hk : key ≠ "")
    (hge : ((prunedOf L B bucket key now).length : Int) ≥ (getLimit L bucket).limit) :
    memAllowNamed ⟨L, B⟩ bucket key now =
      ((false, none), ⟨L,
        if (prunedOf L B bucket key now).isEmpty then eraseA B (key ++ ":" ++ bucket)
        else setA B (key ++ ":" ++ bucket) (prunedOf L B bucket key now)⟩) := by
  rw [memAllowNamed_step L B bucket key now hb hk]
  simp only [prunedOf, entryOf] at hge ⊢
  rw [if_pos hge]

/-- Canonical form of a Redis-backed call past the guards. -/
theorem redisAllowNamed_eq (RL : List (String × Limit)) (zs : List (String × List Int))
    (bucket key : String) (now : Int) (hb : bucket ≠ "") (hk : key ≠ "") :
    redisAllowNamed (some ⟨true, RL⟩) zs bucket key now =
      (((redisStep (getLimit RL bucket) (entryOf zs (key ++ ":" ++ bucket)) now).1, none),
        setA zs (key ++ ":" ++ bucket)
          (redisStep (getLimit RL bucket) (entryOf zs (key ++ ":" ++ bucket)) now).2) := by
  simp only [redisAllowNamed, entryOf]
  rw [if_neg (by simp), if_neg (by simp [hb, hk])]

theorem prunedOf_entry (L : List (String × Limit)) (B : List (String × List Int))
    (bucket key : String) (now : Int) :
    prunedOf L B bucket key now = (entryOf B (key ++ ":" ++ bucket)).dropWhile
      (fun t => decide (t < now - (getLimit L bucket).window)) := rfl

/-- Pruning removes nothing when every timestamp is inside the window. -/
theorem dropWhile_lt_self (ws : Int) (l : List Int) (h : ∀ t ∈ l, ¬ t < ws) :
    l.dropWhile (fun t => decide (t < ws)) = l := by
  cases l with
  | nil => rfl
  | cons a tl =>
      rw [List.dropWhile_cons, if_neg]
      simp only [decide_eq_true_eq]
      exact h a (by simp)

/-- `dropWhile` removes only elements satisfying the predicate, so a filter
selecting the complement is unaffected. -/
theorem filter_dropWhile {α : Type} (p q : α → Bool) (l : List α)
    (h : ∀ a, q a = true → p a = false) :
    (l.dropWhile q).filter p = l.filter p := by
  induction l with
  | nil => rfl
  | cons a tl ih =>
      by_cases hq : q a = true
      · rw [List.dropWhile_cons, if_pos hq, ih, List.filter_cons]
        rw [h a hq]
        simp
      · rw [List.dropWhile_cons, if_neg hq]

theorem dropWhile_idem {α : Type} (q : α → Bool) (l : List α) :
    (l.dropWhile q).dropWhile q = l.dropWhile q := by
  induction l with
  | nil => rfl
  | cons a tl ih =>
      by_cases hq : q a = true
      · rw [List.dropWhile_cons, if_pos hq, ih]
      · rw [List.dropWhile_cons, if_neg hq, List.dropWhile_cons, if_neg hq]

theorem mem_of_mem_dropWhile {α : Type} (q : α → Bool) (l : List α) (a : α)
    (h : a ∈ l.dropWhile q) : a ∈ l :=
  (List.dropWhile_sublist q).mem h

/-- C5: a denied admission check records nothing: the in-window timestamps
for the checked (bucket, key) are unchanged (stale entries may be pruned),
an immediately repeated identical check is denied again without changing
state, and other keys are untouched.  The memory backend satisfies this in
every state; the Redis backend in every state satisfying the reachability
invariant that the in-window member count does not already exceed the
limit. -/
theorem c5_denied_check_records_nothing
    (l : MemLimiter) (bucket key : String) (now : Int)
    (hb : bucket ≠ "") (hk : key ≠ "")
    (hnd : (l.buckets.map Prod.fst).Nodup)
    (hdeny : (memAllowNamed l bucket key now).1.1 = false)
    (rl : RedisLimiter) (zs : List (String × List Int))
    (hcl : rl.hasClient = true)
    (hinvz : ((ztrim (entryOf zs (key ++ ":" ++ bucket))
                (now - (getLimit rl.limits bucket).window)).length : Int) ≤
             (getLimit rl.limits bucket).limit)
    (hdenyz : (redisAllowNamed (some rl) zs bucket key now).1.1 = false) :
    ((entryOf (memAllowNamed l bucket key now).2.buckets (key ++ ":" ++ bucket)).filter
        (fun t => decide (now - (getLimit l.limits bucket).window ≤ t)) =
      (entryOf l.buckets (key ++ ":" ++ bucket)).filter
        (fun t => decide (now - (getLimit l.limits bucket).window ≤ t))) ∧
    (memAllowNamed (memAllowNamed l bucket key now).2 bucket key now =
      ((false, none), (memAllowNamed l bucket key now).2)) ∧
    (∀ k', k' ≠ key ++ ":" ++ bucket →
      lookupA (memAllowNamed l bucket key now).2.buckets k' = lookupA l.buckets k') ∧
    (entryOf (redisAllowNamed (some rl) zs bucket key now).2 (key ++ ":" ++ bucket) =
      ztrim (entryOf zs (key ++ ":" ++ bucket))
        (now - (getLimit rl.limits bucket).window)) ∧
    (redisAllowNamed (some rl) (redisAllowNamed (some rl) zs bucket key now).2
        bucket key now =
      ((false, none), (redisAllowNamed (some rl) zs bucket key now).2)) ∧
    (∀ k', k' ≠ key ++ ":" ++ bucket →
      lookupA (redisAllowNamed (some rl) zs bucket key now).2 k' = lookupA zs k') := by
  obtain ⟨L, B⟩ := l
  obtain ⟨hc, RL⟩ := rl
  simp only at hnd hcl hinvz hdenyz
  subst hcl
  -- memory backend: the call took the deny branch
  have hge : ((prunedOf L B bucket key now).length : Int) ≥ (getLimit L bucket).limit := by
    by_contra hcon
    rw [memAllowNamed_allow L B bucket key now hb hk (by omega)] at hdeny
    simp at hdeny
  have hmem := memAllowNamed_deny L B bucket key now hb hk hge
  have hgefun : ∀ a : Int, decide (a < now - (getLimit L bucket).window) = true →
      decide (now - (getLimit L bucket).window ≤ a) = false := by
    intro a ha
    simp only [decide_eq_true_eq] at ha
    simp only [decide_eq_false_iff_not, not_le]
    exact ha
  have memA : (entryOf (memAllowNamed ⟨L, B⟩ bucket key now).2.buckets
      (key ++ ":" ++ bucket)).filter
        (fun t => decide (now - (getLimit L bucket).window ≤ t)) =
      (entryOf B (key ++ ":" ++ bucket)).filter
        (fun t => decide (now - (getLimit L bucket).window ≤ t)) := by
    rw [hmem]
    dsimp only
    by_cases hemp : (prunedOf L B bucket key now).isEmpty
    · rw [if_pos hemp]
      have hpe : prunedOf L B bucket key now = [] := List.isEmpty_iff.mp hemp
      have hall : ∀ a ∈ entryOf B (key ++ ":" ++ bucket),
          decide (a < now - (getLimit L bucket).window) = true :=
        List.dropWhile_eq_nil_iff.mp (by rw [← prunedOf]; exact hpe)
      have h1 : entryOf (eraseA B (key ++ ":" ++ bucket)) (key ++ ":" ++ bucket) = [] := by
        unfold entryOf
        rw [lookupA_eraseA_eq B _ hnd]
        rfl
      rw [h1]
      have h2 : (entryOf B (key ++ ":" ++ bucket)).filter
          (fun t => decide (now - (getLimit L bucket).window ≤ t)) = [] := by
        rw [List.filter_eq_nil_iff]
        intro a ha
        rw [Bool.not_eq_true, hgefun a (hall a ha)]
      rw [h2]
      rfl
    · rw [if_neg hemp]
      have h1 : entryOf (setA B (key ++ ":" ++ bucket) (prunedOf L B bucket key now))
          (key ++ ":" ++ bucket) = prunedOf L B bucket key now := by
        unfold entryOf
        rw [lookupA_setA_eq]
        rfl
      rw [h1]
      exact filter_dropWhile _ _ _ hgefun
  have memB : memAllowNamed (memAllowNamed ⟨L, B⟩ bucket key now).2 bucket key now =
      ((false, none), (memAllowNamed ⟨L, B⟩ bucket key now).2) := by
    rw [hmem]
    dsimp only
    by_cases hemp : (prunedOf L B bucket key now).isEmpty
    · rw [if_pos hemp]
      have hpe : prunedOf L B bucket key now = [] := List.isEmpty_iff.mp hemp
      have hlook : lookupA (eraseA B (key ++ ":" ++ bucket)) (key ++ ":" ++ bucket) =
          none := lookupA_eraseA_eq B _ hnd
      have hp2 : prunedOf L (eraseA B (key ++ ":" ++ bucket)) bucket key now = [] := by
        unfold prunedOf entryOf
        rw [hlook]
        rfl
      have hge2 : ((prunedOf L (eraseA B (key ++ ":" ++ bucket)) bucket key now).length :
          Int) ≥ (getLimit L bucket).limit := by
        rw [hp2]
        rw [hpe] at hge
        simpa using hge
      rw [memAllowNamed_deny L _ bucket key now hb hk hge2]
      rw [hp2]
      simp only [List.isEmpty_nil, if_true]
      rw [eraseA_of_lookupA_none _ _ hlook]
    · rw [if_neg hemp]
      have hlook : lookupA (setA B (key ++ ":" ++ bucket) (prunedOf L B bucket key now))
          (key ++ ":" ++ bucket) = some (prunedOf L B bucket key now) :=
        lookupA_setA_eq B _ _
      have hent : entryOf (setA B (key ++ ":" ++ bucket) (prunedOf L B bucket key now))
          (key ++ ":" ++ bucket) = prunedOf L B bucket key now := by
        unfold entryOf
        rw [hlook]
        rfl
      have hp2 : prunedOf L (setA B (key ++ ":" ++ bucket) (prunedOf L B bucket key now))
          bucket key now = prunedOf L B bucket key now := by
        rw [prunedOf_entry, hent]
        rw [prunedOf_entry]
        exact dropWhile_idem _ _
      have hge2 : ((prunedOf L (setA B (key ++ ":" ++ bucket)
          (prunedOf L B bucket key now)) bucket key now).length : Int) ≥
          (getLimit L bucket).limit := by rw [hp2]; exact hge
      rw [memAllowNamed_deny L _ bucket key now hb hk hge2]
      rw [hp2, if_neg hemp, setA_setA]
  have memC : ∀ k', k' ≠ key ++ ":" ++ bucket →
      lookupA (memAllowNamed ⟨L, B⟩ bucket key now).2.buckets k' = lookupA B k' := by
    intro k' hne
    rw [hmem]
    dsimp only
    by_cases hemp : (prunedOf L B bucket key now).isEmpty
    · rw [if_pos hemp]
      exact lookupA_eraseA_ne B _ k' (fun h => hne h.symm)
    · rw [if_neg hemp]
      exact lookupA_setA_ne B _ k' _ (fun h => hne h.symm)
  -- redis backend
  have hredu := redisAllowNamed_eq RL zs bucket key now hb hk
  have hdcond : ((ztrim (zadd (entryOf zs (key ++ ":" ++ bucket)) now)
      (now - (getLimit RL bucket).window)).length : Int) > (getLimit RL bucket).limit := by
    by_contra hcon
    rw [hredu] at hdenyz
    simp only [redisStep] at hdenyz
    rw [if_neg (by omega)] at hdenyz
    simp at hdenyz
  have hnotmem : now ∉ entryOf zs (key ++ ":" ++ bucket) := by
    intro hmem2
    have hz : zadd (entryOf zs (key ++ ":" ++ bucket)) now =
        entryOf zs (key ++ ":" ++ bucket) := by simp [zadd, hmem2]
    rw [hz] at hdcond
    omega
  have hzadd : zadd (entryOf zs (key ++ ":" ++ bucket)) now =
      entryOf zs (key ++ ":" ++ bucket) ++ [now] := by simp [zadd, hnotmem]
  have hkept : ¬(0 ≤ now ∧ now ≤ now - (getLimit RL bucket).window) := by
    intro hcon
    have heq : ztrim (zadd (entryOf zs (key ++ ":" ++ bucket)) now)
        (now - (getLimit RL bucket).window) =
        ztrim (entryOf zs (key ++ ":" ++ bucket))
          (now - (getLimit RL bucket).window) := by
      rw [hzadd, ztrim, ztrim, List.filter_append]
      simp [hcon.1, hcon.2]
    rw [heq] at hdcond
    omega
  have hsingle : List.filter
      (fun t => !(decide (0 ≤ t) && decide (t ≤ now - (getLimit RL bucket).window)))
      [now] = [now] := by
    simp only [List.filter_cons, List.filter_nil]
    rw [if_pos]
    rw [Bool.not_eq_eq_eq_not, Bool.not_true, Bool.and_eq_false_iff]
    by_cases h0 : (0 : Int) ≤ now
    · right
      simp only [decide_eq_false_iff_not, not_le]
      have := not_and.mp hkept h0
      omega
    · left
      simp only [decide_eq_false_iff_not, not_le]
      omega
  have htrimadd : ztrim (zadd (entryOf zs (key ++ ":" ++ bucket)) now)
      (now - (getLimit RL bucket).window) =
      ztrim (entryOf zs (key ++ ":" ++ bucket)) (now - (getLimit RL bucket).window)
        ++ [now] := by
    rw [hzadd, ztrim, ztrim, List.filter_append, hsingle]
  have hnotmemtrim : now ∉ ztrim (entryOf zs (key ++ ":" ++ bucket))
      (now - (getLimit RL bucket).window) := fun h =>
    hnotmem (List.mem_of_mem_filter h)
  have herase : (ztrim (zadd (entryOf zs (key ++ ":" ++ bucket)) now)
      (now - (getLimit RL bucket).window)).erase now =
      ztrim (entryOf zs (key ++ ":" ++ bucket)) (now - (getLimit RL bucket).window) := by
    rw [htrimadd, List.erase_append_right _ hnotmemtrim, List.erase_cons_head,
      List.append_nil]
  have hstep1 : redisStep (getLimit RL bucket) (entryOf zs (key ++ ":" ++ bucket)) now =
      (false, ztrim (entryOf zs (key ++ ":" ++ bucket))
        (now - (getLimit RL bucket).window)) := by
    simp only [redisStep]
    rw [if_pos hdcond, herase]
  have redA : entryOf (redisAllowNamed (some ⟨true, RL⟩) zs bucket key now).2
      (key ++ ":" ++ bucket) =
      ztrim (entryOf zs (key ++ ":" ++ bucket)) (now - (getLimit RL bucket).window) := by
    rw [hredu, hstep1]
    unfold entryOf
    rw [lookupA_setA_eq]
    rfl
  have hlentrim : (((ztrim (entryOf zs (key ++ ":" ++ bucket))
      (now - (getLimit RL bucket).window) ++ [now]).length : Int)) >
      (getLimit RL bucket).limit := by
    rw [← htrimadd]
    exact hdcond
  have redB : redisAllowNamed (some ⟨true, RL⟩)
      (redisAllowNamed (some ⟨true, RL⟩) zs bucket key now).2 bucket key now =
      ((false, none), (redisAllowNamed (some ⟨true, RL⟩) zs bucket key now).2) := by
    rw [hredu, hstep1]
    dsimp only
    rw [redisAllowNamed_eq RL _ bucket key now hb hk]
    have hent : entryOf (setA zs (key ++ ":" ++ bucket)
        (ztrim (entryOf zs (key ++ ":" ++ bucket)) (now - (getLimit RL bucket).window)))
        (key ++ ":" ++ bucket) =
        ztrim (entryOf zs (key ++ ":" ++ bucket))
          (now - (getLimit RL bucket).window) := by
      unfold entryOf
      rw [lookupA_setA_eq]
      rfl
    rw [hent]
    have hz2 : zadd (ztrim (entryOf zs (key ++ ":" ++ bucket))
        (now - (getLimit RL bucket).window)) now =
        ztrim (entryOf zs (key ++ ":" ++ bucket)) (now - (getLimit RL bucket).window)
          ++ [now] := by
      simp [zadd, hnotmemtrim]
    have htrim2 : ztrim (zadd (ztrim (entryOf zs (key ++ ":" ++ bucket))
        (now - (getLimit RL bucket).window)) now) (now - (getLimit RL bucket).window) =
        ztrim (entryOf zs (key ++ ":" ++ bucket)) (now - (getLimit RL bucket).window)
          ++ [now] := by
      rw [hz2, ztrim, List.filter_append, hsingle]
      congr 1
      rw [List.filter_eq_self]
      intro a ha
      simp only [ztrim] at ha
      simpa using List.of_mem_filter ha
    have hstep2 : redisStep (getLimit RL bucket)
        (ztrim (entryOf zs (key ++ ":" ++ bucket))
          (now - (getLimit RL bucket).window)) now =
        (false, ztrim (entryOf zs (key ++ ":" ++ bucket))
          (now - (getLimit RL bucket).window)) := by
      simp only [redisStep]
      rw [htrim2, if_pos hlentrim,
        List.erase_append_right _ hnotmemtrim, List.erase_cons_head, List.append_nil]
    rw [hstep2]
    dsimp only
    rw [setA_setA]
  have redC : ∀ k', k' ≠ key ++ ":" ++ bucket →
      lookupA (redisAllowNamed (some ⟨true, RL⟩) zs bucket key now).2 k' =
        lookupA zs k' := by
    intro k' hne
    rw [hredu]
    exact lookupA_setA_ne zs _ k' _ (fun h => hne h.symm)
  exact ⟨memA, memB, memC, redA, redB, redC⟩

theorem c5_denied_check_records_nothing_witness :
    (entryOf (memAllowNamed ⟨[("b", ⟨1, 100⟩)], [("k:b", [50])]⟩ "b" "k" 60).2.buckets
        ("k" ++ ":" ++ "b")).filter
      (fun t => decide (60 - (getLimit [("b", ⟨1, 100⟩)] "b").window ≤ t)) =
    (entryOf [("k:b", [50])] ("k" ++ ":" ++ "b")).filter
      (fun t => decide (60 - (getLimit [("b", ⟨1, 100⟩)] "b").window ≤ t)) :=
  (c5_denied_check_records_nothing ⟨[("b", ⟨1, 100⟩)], [("k:b", [50])]⟩ "b" "k" 60
    (by decide) (by decide) (by decide) (by decide)
    ⟨true, [("b", ⟨1, 100⟩)]⟩ [("k:b", [50])]
    (by decide) (by decide) (by decide)).1

/-- In a sorted entry, everything surviving the stale-prefix prune is inside
the window. -/
theorem sorted_dropWhile_ge (ws : Int) (l : List Int) (hs : l.Sorted (· ≤ ·)) :
    ∀ t ∈ l.dropWhile (fun t => decide (t < ws)), ws ≤ t := by
  induction l with
  | nil => simp
  | cons a tl ih =>
      rw [List.sorted_cons] at hs
      by_cases hq : decide (a < ws) = true
      · rw [List.dropWhile_cons, if_pos hq]
        exact ih hs.2
      · rw [List.dropWhile_cons, if_neg hq]
        intro t ht
        simp only [decide_eq_true_eq, not_lt] at hq
        rcases List.mem_cons.mp ht with h | h
        · omega
        · have := hs.1 t h
          omega

/-- C9: across any `AllowNamed` call on the in-memory limiter (sorted entry,
nonnegative window), the accessed entry is present only when nonempty, holds
no timestamp older than now - window once the call completes (entries whose
timestamps all aged out are deleted rather than kept empty), and a fresh
(bucket, key) entry is created exactly when the call admits. -/
theorem c9_memory_bucket_invariant
    (l : MemLimiter) (bucket key : String) (now : Int)
    (hb : bucket ≠ "") (hk : key ≠ "")
    (hnd : (l.buckets.map Prod.fst).Nodup)
    (hsorted : (entryOf l.buckets (key ++ ":" ++ bucket)).Sorted (· ≤ ·))
    (hw : 0 ≤ (getLimit l.limits bucket).window) :
    (∀ e, lookupA (memAllowNamed l bucket key now).2.buckets (key ++ ":" ++ bucket) =
        some e → e ≠ [] ∧ ∀ t ∈ e, now - (getLimit l.limits bucket).window ≤ t) ∧
    (lookupA l.buckets (key ++ ":" ++ bucket) = none →
      (lookupA (memAllowNamed l bucket key now).2.buckets (key ++ ":" ++ bucket) ≠ none ↔
        (memAllowNamed l bucket key now).1.1 = true)) := by
  obtain ⟨L, B⟩ := l
  simp only at hnd hsorted hw ⊢
  by_cases hcond : ((prunedOf L B bucket key now).length : Int) ≥ (getLimit L bucket).limit
  · rw [memAllowNamed_deny L B bucket key now hb hk hcond]
    dsimp only
    by_cases hemp : (prunedOf L B bucket key now).isEmpty
    · rw [if_pos hemp]
      constructor
      · intro e he
        rw [lookupA_eraseA_eq B _ hnd] at he
        cases he
      · intro hfresh
        constructor
        · intro hne
          exact absurd (lookupA_eraseA_eq B _ hnd) hne
        · intro hc
          exact absurd hc (by simp)
    · rw [if_neg hemp]
      constructor
      · intro e he
        rw [lookupA_setA_eq] at he
        injection he with he'
        subst he'
        constructor
        · intro h0
          rw [h0] at hemp
          simp at hemp
        · intro t ht
          rw [prunedOf_entry] at ht
          exact sorted_dropWhile_ge _ _ hsorted t ht
      · intro hfresh
        exfalso
        have h1 : entryOf B (key ++ ":" ++ bucket) = [] := by
          unfold entryOf
          rw [hfresh]
          rfl
        have h2 : prunedOf L B bucket key now = [] := by
          rw [prunedOf_entry, h1]
          rfl
        rw [h2] at hemp
        simp at hemp
  · rw [memAllowNamed_allow L B bucket key now hb hk (by omega)]
    dsimp only
    constructor
    · intro e he
      rw [lookupA_setA_eq] at he
      injection he with he'
      subst he'
      constructor
      · simp
      · intro t ht
        rcases List.mem_append.mp ht with h | h
        · rw [prunedOf_entry] at h
          exact sorted_dropWhile_ge _ _ hsorted t h
        · simp only [List.mem_singleton] at h
          subst h
          omega
    · intro hfresh
      constructor
      · intro _
        rfl
      · intro _
        rw [lookupA_setA_eq]
        simp

theorem c9_memory_bucket_invariant_witness :
    lookupA (memAllowNamed ⟨[("b", ⟨1, 100⟩)], []⟩ "b" "k" 5).2.buckets
        ("k" ++ ":" ++ "b") ≠ none ↔
      (memAllowNamed ⟨[("b", ⟨1, 100⟩)], []⟩ "b" "k" 5).1.1 = true :=
  (c9_memory_bucket_invariant ⟨[("b", ⟨1, 100⟩)], []⟩ "b" "k" 5
    (by decide) (by decide) (by decide) (by decide) (by decide)).2 (by decide)

/-- C10: at the limiter interface, a nil receiver (or, for the Redis backend,
a nil client) fails open with (true, nil); an empty bucket or key returns
(false, non-nil error) in both backends. -/
theorem c10_interface_guards (lm : MemLimiter) (rl : RedisLimiter)
    (zs : List (String × List Int)) (bucket key : String) (now : Int)
    (hempty : bucket = "" ∨ key = "") :
    memAllowNamedO none bucket key now = ((true, none), none) ∧
    redisAllowNamed none zs bucket key now = ((true, none), zs) ∧
    (rl.hasClient = false → redisAllowNamed (some rl) zs bucket key now = ((true, none), zs)) ∧
    (memAllowNamedO (some lm) bucket key now).1 = (false, some "bucket and key required") ∧
    (rl.hasClient = true →
      (redisAllowNamed (some rl) zs bucket key now).1 =
        (false, some "bucket and key required")) := by
  refine ⟨rfl, rfl, ?_, ?_, ?_⟩
  · intro h; simp [redisAllowNamed, h]
  · simp [memAllowNamedO, memAllowNamed, hempty]
  · intro h; simp [redisAllowNamed, h, hempty]

theorem c10_interface_guards_witness :
    (memAllowNamedO (some ⟨[], []⟩) "" "user1" 0).1 =
      (false, some "bucket and key required") :=
  (c10_interface_guards ⟨[], []⟩ ⟨true, []⟩ [] "" "user1" 0 (Or.inl rfl)).2.2.2.1

/-- C2: with bucket "login" configured as limit 5 / window 60 s, five calls
within 60 s are all admitted, a sixth call inside the same window is denied,
and a call 61 s after the first is admitted again. -/
theorem c2_login_rate_example (t1 t2 t3 t4 t5 t6 t7 : Int)
    (h12 : t1 ≤ t2) (h23 : t2 ≤ t3) (h34 : t3 ≤ t4) (h45 : t4 ≤ t5) (h56 : t5 ≤ t6)
    (hwin : t5 - t1 ≤ 60000) (hwin6 : t6 - t1 ≤ 60000) (h7 : t7 = t1 + 61000) :
    memRunOn "login" "user1" loginLimiter [t1, t2, t3, t4, t5, t6, t7] =
      [true, true, true, true, true, false, true] := by
  subst h7
  have hb : ("login" : String) ≠ "" := by decide
  have hk : ("user1" : String) ≠ "" := by decide
  have hget : getLimit [("login", (⟨5, 60000⟩ : Limit))] "login" = ⟨5, 60000⟩ := rfl
  -- step 1
  have s1 : memAllowNamed loginLimiter "login" "user1" t1 =
      ((true, none), ⟨[("login", ⟨5, 60000⟩)], [("user1:login", [t1])]⟩) := by
    rw [show loginLimiter = ⟨[("login", ⟨5, 60000⟩)], []⟩ from rfl,
      memAllowNamed_step _ _ _ _ _ hb hk]
    simp [hget, lookupA, setA]
  have key1 : ("user1" : String) ++ ":" ++ "login" = "user1:login" := rfl
  -- generic admitted-step for an already-populated bucket
  have stepA : ∀ (ts : List Int) (t : Int), (∀ x ∈ ts, ¬ x < t - 60000) →
      (ts.length : Int) < 5 →
      memAllowNamed ⟨[("login", ⟨5, 60000⟩)], [("user1:login", ts)]⟩ "login" "user1" t =
        ((true, none), ⟨[("login", ⟨5, 60000⟩)], [("user1:login", ts ++ [t])]⟩) := by
    intro ts t hin hlen
    rw [memAllowNamed_step _ _ _ _ _ hb hk]
    simp only [hget, key1]
    rw [show lookupA [("user1:login", ts)] "user1:login" = some ts from by
          simp [lookupA]]
    simp only [Option.getD_some]
    rw [dropWhile_lt_self _ _ hin]
    rw [if_neg (by omega)]
    simp [setA]
  have stepD : ∀ (ts : List Int) (t : Int), (∀ x ∈ ts, ¬ x < t - 60000) →
      (ts.length : Int) ≥ 5 → ts ≠ [] →
      memAllowNamed ⟨[("login", ⟨5, 60000⟩)], [("user1:login", ts)]⟩ "login" "user1" t =
        ((false, none), ⟨[("login", ⟨5, 60000⟩)], [("user1:login", ts)]⟩) := by
    intro ts t hin hlen hne
    rw [memAllowNamed_step _ _ _ _ _ hb hk]
    simp only [hget, key1]
    rw [show lookupA [("user1:login", ts)] "user1:login" = some ts from by
          simp [lookupA]]
    simp only [Option.getD_some]
    rw [dropWhile_lt_self _ _ hin]
    rw [if_pos hlen]
    simp [setA, List.isEmpty_iff, hne]
  have s2 : memAllowNamed ⟨[("login", ⟨5, 60000⟩)], [("user1:login", [t1])]⟩
      "login" "user1" t2 =
      ((true, none), ⟨[("login", ⟨5, 60000⟩)], [("user1:login", [t1, t2])]⟩) := by
    simpa using stepA [t1] t2 (by intro x hx; simp at hx; omega) (by simp)
  have s3 : memAllowNamed ⟨[("login", ⟨5, 60000⟩)], [("user1:login", [t1, t2])]⟩
      "login" "user1" t3 =
      ((true, none), ⟨[("login", ⟨5, 60000⟩)], [("user1:login", [t1, t2, t3])]⟩) := by
    simpa using stepA [t1, t2] t3
      (by intro x hx; simp at hx; rcases hx with h | h <;> omega) (by simp)
  have s4 : memAllowNamed ⟨[("login", ⟨5, 60000⟩)], [("user1:login", [t1, t2, t3])]⟩
      "login" "user1" t4 =
      ((true, none), ⟨[("login", ⟨5, 60000⟩)], [("user1:login", [t1, t2, t3, t4])]⟩) := by
    simpa using stepA [t1, t2, t3] t4
      (by intro x hx; simp at hx; rcases hx with h | h | h <;> omega) (by simp)
  have s5 : memAllowNamed ⟨[("login", ⟨5, 60000⟩)], [("user1:login", [t1, t2, t3, t4])]⟩
      "login" "user1" t5 =
      ((true, none), ⟨[("login", ⟨5, 60000⟩)], [("user1:login", [t1, t2, t3, t4, t5])]⟩) := by
    simpa using stepA [t1, t2, t3, t4] t5
      (by intro x hx; simp at hx; rcases hx with h | h | h | h <;> omega) (by simp)
  have s6 := stepD [t1, t2, t3, t4, t5] t6
    (by intro x hx; simp at hx; rcases hx with h | h | h | h | h <;> omega)
    (by simp) (by simp)
  -- step 7: t1 is pruned, at most four timestamps remain, so the call is allowed
  have s7 : (memAllowNamed ⟨[("login", ⟨5, 60000⟩)], [("user1:login", [t1, t2, t3, t4, t5])]⟩
      "login" "user1" (t1 + 61000)).1.1 = true := by
    rw [memAllowNamed_step _ _ _ _ _ hb hk]
    simp only [hget, key1]
    rw [show lookupA [("user1:login", [t1, t2, t3, t4, t5])] "user1:login" =
          some [t1, t2, t3, t4, t5] from by simp [lookupA]]
    simp only [Option.getD_some]
    have hdw : List.dropWhile (fun x => decide (x < t1 + 61000 - 60000))
        [t1, t2, t3, t4, t5] =
        List.dropWhile (fun x => decide (x < t1 + 61000 - 60000)) [t2, t3, t4, t5] := by
      rw [List.dropWhile_cons, if_pos (by simp only [decide_eq_true_eq]; omega)]
    rw [hdw]
    have hlen : (List.dropWhile (fun x => decide (x < t1 + 61000 - 60000))
        [t2, t3, t4, t5]).length ≤ 4 := by
      calc (List.dropWhile (fun x => decide (x < t1 + 61000 - 60000))
              [t2, t3, t4, t5]).length
          ≤ ([t2, t3, t4, t5] : List Int).length :=
            (List.dropWhile_sublist _).length_le
        _ = 4 := by simp
    rw [if_neg (by omega)]
  simp only [memRunOn, s1, s2, s3, s4, s5, s6]
  rw [show (memAllowNamed ⟨[("login", ⟨5, 60000⟩)], [("user1:login", [t1, t2, t3, t4, t5])]⟩
        "login" "user1" (t1 + 61000)).1.1 = true from s7]

theorem c2_login_rate_example_witness :
    memRunOn "login" "user1" loginLimiter [0, 10000, 20000, 30000, 60000, 60000, 61000] =
      [true, true, true, true, true, false, true] :=
  c2_login_rate_example 0 10000 20000 30000 60000 60000 61000
    (by omega) (by omega) (by omega) (by omega) (by omega) (by omega) (by omega) (by omega)

/-- C4 counterexample: two calls in the same millisecond.  The Redis backend
stores the timestamp as the ZSET member, so the second same-millisecond call
is deduplicated and admitted, while the in-memory backend records both and
denies the second (limit 1, window 60 s). -/
theorem c4_counterexample :
    memRunOn "b" "k" ⟨[("b", ⟨1, 60000⟩)], []⟩ [0, 0] ≠
      redisRunOn "b" "k" ⟨true, [("b", ⟨1, 60000⟩)]⟩ [] [0, 0] := by decide

theorem ztrim_keep (ws t : Int) (h : ws < t) :
    (!(decide (0 ≤ t) && decide (t ≤ ws))) = true := by
  simp only [Bool.not_eq_eq_eq_not, Bool.not_true, Bool.and_eq_false_iff,
    decide_eq_false_iff_not, not_le]
  right
  omega

/-- On a sorted, nonnegative member list containing no timestamp equal to the
cutoff, the Redis range removal and the in-memory prefix prune coincide. -/
theorem ztrim_eq_dropWhile (ws : Int) (cur : List Int) (hs : cur.Sorted (· ≤ ·))
    (hnn : ∀ t ∈ cur, 0 ≤ t) (hne : ∀ t ∈ cur, t ≠ ws) :
    ztrim cur ws = cur.dropWhile (fun t => decide (t < ws)) := by
  induction cur with
  | nil => rfl
  | cons a tl ih =>
      rw [List.sorted_cons] at hs
      by_cases ha : a < ws
      · rw [show ztrim (a :: tl) ws = ztrim tl ws from by
              simp [ztrim, List.filter_cons, hnn a (by simp), le_of_lt ha]]
        rw [List.dropWhile_cons, if_pos (by simpa using ha)]
        exact ih hs.2 (fun t ht => hnn t (by simp [ht])) (fun t ht => hne t (by simp [ht]))
      · have ha' : ws < a :=
          lt_of_le_of_ne (not_lt.mp ha) (fun h => hne a (by simp) h.symm)
        rw [List.dropWhile_cons, if_neg (by simpa using ha)]
        rw [ztrim, List.filter_eq_self.mpr]
        intro t ht
        rcases List.mem_cons.mp ht with h | h
        · subst h
          exact ztrim_keep ws t ha'
        · exact ztrim_keep ws t (lt_of_lt_of_le ha' (hs.1 t h))

/-- C4 amended equivalence: starting from empty state, for any per-bucket
configuration with a positive window and any strictly increasing sequence of
nonnegative call timestamps in which no two calls are separated by exactly
the window, both backends produce identical decision sequences for the same
(bucket, key). -/
theorem c4_backend_equivalence (limits : List (String × Limit)) (bucket key : String)
    (times : List Int) (hb : bucket ≠ "") (hk : key ≠ "")
    (hw : 0 < (getLimit limits bucket).window)
    (hpos : ∀ t ∈ times, 0 ≤ t)
    (hmono : times.Pairwise (· < ·))
    (hdiff : times.Pairwise (fun a b => b - a ≠ (getLimit limits bucket).window)) :
    memRunOn bucket key ⟨limits, []⟩ times =
      redisRunOn bucket key ⟨true, limits⟩ [] times := by
  -- generalized over synchronized intermediate states
  suffices haux : ∀ (ts : List Int) (cur : List Int)
      (B zs : List (String × List Int)),
      entryOf B (key ++ ":" ++ bucket) = cur →
      entryOf zs (key ++ ":" ++ bucket) = cur →
      (B.map Prod.fst).Nodup →
      cur.Sorted (· < ·) →
      (∀ t ∈ cur, 0 ≤ t) →
      (∀ t ∈ cur, ∀ n ∈ ts, t < n ∧ n - t ≠ (getLimit limits bucket).window) →
      (∀ t ∈ ts, 0 ≤ t) → ts.Pairwise (· < ·) →
      ts.Pairwise (fun a b => b - a ≠ (getLimit limits bucket).window) →
      memRunOn bucket key ⟨limits, B⟩ ts = redisRunOn bucket key ⟨true, limits⟩ zs ts by
    exact haux times [] [] [] rfl rfl (by simp) (by simp) (by simp) (by simp)
      hpos hmono hdiff
  intro ts
  induction ts with
  | nil => intro cur B zs _ _ _ _ _ _ _ _ _; rfl
  | cons n rest ih =>
      intro cur B zs hB hzs hBnd hsort hnn hcross hpos2 hmono2 hdiff2
      rw [List.pairwise_cons] at hmono2 hdiff2
      have hn0 : 0 ≤ n := hpos2 n (by simp)
      have hcur_lt : ∀ t ∈ cur, t < n := fun t ht => (hcross t ht n (by simp)).1
      have hcur_ne : ∀ t ∈ cur, t ≠ n - (getLimit limits bucket).window := by
        intro t ht heq
        exact (hcross t ht n (by simp)).2 (by omega)
      have hnotmem : n ∉ cur := fun h => lt_irrefl n (hcur_lt n h)
      have hFsub : ∀ t ∈ cur.dropWhile
          (fun t => decide (t < n - (getLimit limits bucket).window)), t ∈ cur :=
        fun t ht => (List.dropWhile_sublist _).mem ht
      have hnotmemF : n ∉ cur.dropWhile
          (fun t => decide (t < n - (getLimit limits bucket).window)) :=
        fun h => hnotmem (hFsub n h)
      -- memory pruned list
      have hpruned : prunedOf limits B bucket key n =
          cur.dropWhile (fun t => decide (t < n - (getLimit limits bucket).window)) := by
        rw [prunedOf_entry, hB]
      -- redis trimmed list
      have hsortle : cur.Sorted (· ≤ ·) := hsort.le_of_lt
      have htrim : ztrim (zadd cur n) (n - (getLimit limits bucket).window) =
          cur.dropWhile (fun t => decide (t < n - (getLimit limits bucket).window))
            ++ [n] := by
        rw [show zadd cur n = cur ++ [n] from by simp [zadd, hnotmem]]
        rw [ztrim, List.filter_append]
        have h1 := ztrim_eq_dropWhile (n - (getLimit limits bucket).window) cur
          hsortle hnn hcur_ne
        rw [ztrim] at h1
        rw [h1]
        have h2 : List.filter
            (fun t => !(decide (0 ≤ t) &&
              decide (t ≤ n - (getLimit limits bucket).window))) [n] = [n] := by
          simp only [List.filter_cons, List.filter_nil]
          rw [if_pos (ztrim_keep _ n (by omega))]
        rw [h2]
      -- invariants for the recursive call
      have hFsort : (cur.dropWhile
          (fun t => decide (t < n - (getLimit limits bucket).window))).Sorted (· < ·) :=
        hsort.sublist (List.dropWhile_sublist _)
      have hFnn : ∀ t ∈ cur.dropWhile
          (fun t => decide (t < n - (getLimit limits bucket).window)), 0 ≤ t :=
        fun t ht => hnn t (hFsub t ht)
      have hcrossF : ∀ t ∈ cur.dropWhile
          (fun t => decide (t < n - (getLimit limits bucket).window)),
          ∀ m ∈ rest, t < m ∧ m - t ≠ (getLimit limits bucket).window := by
        intro t ht m hm
        exact hcross t (hFsub t ht) m (by simp [hm])
      have hposr : ∀ t ∈ rest, 0 ≤ t := fun t ht => hpos2 t (by simp [ht])
      by_cases hcase : (((cur.dropWhile
          (fun t => decide (t < n - (getLimit limits bucket).window))).length : Int) ≥
          (getLimit limits bucket).limit)
      · -- both backends deny
        have hmemstep := memAllowNamed_deny limits B bucket key n hb hk
          (by rw [hpruned]; exact hcase)
        have hredu := redisAllowNamed_eq limits zs bucket key n hb hk
        rw [hzs] at hredu
        have hredstep : redisStep (getLimit limits bucket) cur n =
            (false, cur.dropWhile
              (fun t => decide (t < n - (getLimit limits bucket).window))) := by
          simp only [redisStep, htrim]
          rw [if_pos (by
            simp only [List.length_append, List.length_singleton]
            push_cast
            omega)]
          rw [List.erase_append_right _ hnotmemF, List.erase_cons_head, List.append_nil]
        rw [hredstep] at hredu
        simp only [memRunOn, redisRunOn, hmemstep, hredu]
        congr 1
        have hmementry : entryOf
            (if (prunedOf limits B bucket key n).isEmpty
              then eraseA B (key ++ ":" ++ bucket)
              else setA B (key ++ ":" ++ bucket) (prunedOf limits B bucket key n))
            (key ++ ":" ++ bucket) =
            cur.dropWhile (fun t => decide (t < n - (getLimit limits bucket).window)) := by
          by_cases hemp : (prunedOf limits B bucket key n).isEmpty
          · rw [if_pos hemp]
            have hFe : cur.dropWhile
                (fun t => decide (t < n - (getLimit limits bucket).window)) = [] := by
              rw [← hpruned]
              exact List.isEmpty_iff.mp hemp
            rw [hFe]
            unfold entryOf
            rw [lookupA_eraseA_eq B _ hBnd]
            rfl
          · rw [if_neg hemp]
            unfold entryOf
            rw [lookupA_setA_eq, hpruned]
            rfl
        have hBnd' : (((if (prunedOf limits B bucket key n).isEmpty
              then eraseA B (key ++ ":" ++ bucket)
              else setA B (key ++ ":" ++ bucket)
                (prunedOf limits B bucket key n)).map Prod.fst)).Nodup := by
          by_cases hemp : (prunedOf limits B bucket key n).isEmpty
          · rw [if_pos hemp]; exact nodup_keys_eraseA B _ hBnd
          · rw [if_neg hemp]; exact nodup_keys_setA B _ _ hBnd
        refine ih _ _ _ hmementry ?_ hBnd' hFsort hFnn hcrossF hposr
          hmono2.2 hdiff2.2
        unfold entryOf
        rw [lookupA_setA_eq]
        rfl
      · -- both backends admit
        have hmemstep := memAllowNamed_allow limits B bucket key n hb hk
          (by rw [hpruned]; omega)
        have hredu := redisAllowNamed_eq limits zs bucket key n hb hk
        rw [hzs] at hredu
        have hredstep : redisStep (getLimit limits bucket) cur n =
            (true, cur.dropWhile
              (fun t => decide (t < n - (getLimit limits bucket).window)) ++ [n]) := by
          simp only [redisStep, htrim]
          rw [if_neg (by
            simp only [List.length_append, List.length_singleton]
            push_cast
            omega)]
        rw [hredstep] at hredu
        simp only [memRunOn, redisRunOn, hmemstep, hredu]
        congr 1
        have hnewsort : (cur.dropWhile
            (fun t => decide (t < n - (getLimit limits bucket).window))
              ++ [n]).Sorted (· < ·) := by
          rw [List.Sorted, List.pairwise_append]
          refine ⟨hFsort, by simp, ?_⟩
          intro a ha b hb2
          rw [List.mem_singleton] at hb2
          subst hb2
          exact hcur_lt a (hFsub a ha)
        have hnewnn : ∀ t ∈ cur.dropWhile
            (fun t => decide (t < n - (getLimit limits bucket).window)) ++ [n],
            0 ≤ t := by
          intro t ht
          rcases List.mem_append.mp ht with h | h
          · exact hFnn t h
          · rw [List.mem_singleton] at h; omega
        have hnewcross : ∀ t ∈ cur.dropWhile
            (fun t => decide (t < n - (getLimit limits bucket).window)) ++ [n],
            ∀ m ∈ rest, t < m ∧ m - t ≠ (getLimit limits bucket).window := by
          intro t ht m hm
          rcases List.mem_append.mp ht with h | h
          · exact hcrossF t h m hm
          · rw [List.mem_singleton] at h
            subst h
            exact ⟨hmono2.1 m hm, hdiff2.1 m hm⟩
        refine ih _ _ _ ?_ ?_ (nodup_keys_setA B _ _ hBnd) hnewsort hnewnn hnewcross
          hposr hmono2.2 hdiff2.2
        · unfold entryOf
          rw [lookupA_setA_eq, hpruned]
          rfl
        · unfold entryOf
          rw [lookupA_setA_eq]
          rfl

theorem c4_backend_equivalence_witness :
    memRunOn "b" "k" ⟨[("b", ⟨2, 60000⟩)], []⟩ [0, 100, 30000, 70000] =
      redisRunOn "b" "k" ⟨true, [("b", ⟨2, 60000⟩)]⟩ [] [0, 100, 30000, 70000] :=
  c4_backend_equivalence [("b", ⟨2, 60000⟩)] "b" "k" [0, 100, 30000, 70000]
    (by decide) (by decide) (by decide) (by decide) (by decide) (by decide)

end RateLimit

namespace Oidc

/-- C6 counterexample: a discovery response reporting an empty issuer (with
all endpoints present) differs from the configured issuer, yet relying-party
construction succeeds, falling back to the configured issuer. -/
theorem c6_counterexample :
    newRelyingPartyOIDC "https://idp.example" "cid" "sec" "cb" []
        (Except.ok ⟨"", "a", "t", "j"⟩) =
      Except.ok ⟨"https://idp.example", "cid", "j", "sec", "cb", [], "a", "t"⟩ ∧
    ("" : String) ≠ "https://idp.example" := by
  constructor
  · rfl
  · decide

/-- C6 amended: whenever the discovery document reports a non-empty issuer
that, after trimming trailing slashes, differs from the trimmed configured
issuer, `NewRelyingPartyOIDC` returns an error, so no relying party (and
hence no authorization URL) can be produced — the flow fails closed before
any authorization step. -/
theorem c6_issuer_mismatch_fails_closed
    (issuer clientID clientSecret redirectURI : String)
    (scopes : List String) (doc : DiscoveryDoc)
    (hne : trimRightSlash doc.issuer ≠ "")
    (hmm2 : trimRightSlash doc.issuer ≠ trimRightSlash issuer) :
    isErr (newRelyingPartyOIDC issuer clientID clientSecret redirectURI scopes
      (Except.ok doc)) = true := by
  unfold newRelyingPartyOIDC
  by_cases hti : trimRightSlash issuer = ""
  · rw [if_pos hti]
    rfl
  · rw [if_neg hti]
    have hcheck : discoverOIDCCheck (trimRightSlash issuer) doc =
        Except.error ("oidc: issuer mismatch: " ++ doc.issuer) := by
      unfold discoverOIDCCheck
      rw [if_pos ⟨hne, hmm2⟩]
    simp only [hcheck]
    rfl

theorem c6_issuer_mismatch_fails_closed_witness :
    isErr (newRelyingPartyOIDC "https://idp.example" "cid" "sec" "cb" []
      (Except.ok ⟨"https://evil.example", "a", "t", "j"⟩)) = true :=
  c6_issuer_mismatch_fails_closed "https://idp.example" "cid" "sec" "cb" []
    ⟨"https://evil.example", "a", "t", "j"⟩ (by decide) (by decide)

/-- C7 counterexample: with an empty bound nonce, the nonce check is skipped
entirely: a token carrying no nonce claim at all is accepted and an identity
is returned. -/
theorem c7_counterexample :
    defaultExchanger ⟨"https://iss", "cid", "j", "s", "r", [], "a", "t"⟩ "google"
        (Except.ok (some ⟨"k1", "https://iss", ["cid"], true, none, "sub1",
          none, none, none, none⟩))
        (Except.ok ["k1"]) "" =
      Except.ok ⟨"sub1", none, some false, none, none,
        ⟨"k1", "https://iss", ["cid"], true, none, "sub1", none, none, none,
          none⟩⟩ := by
  rfl

/-- C7 amended: for a non-empty bound nonce, the exchanged ID token is
independently re-verified: a missing or mismatching nonce claim yields an
error; a failed signature/validity/issuer/audience check yields an error;
and a successful exchange implies every check passed and the token's nonce
claim equals the bound nonce. -/
theorem c7_exchange_verifies_id_token
    (rp : RelyingParty) (provider : String) (tok : IDToken)
    (keySet : Except String (List String)) (ksl : List String)
    (exchange : Except String (Option IDToken)) (nonce : String) (c : Claims)
    (hnonce : nonce ≠ "") :
    ((tok.nonce = none ∨ ∃ n, tok.nonce = some n ∧ n ≠ nonce) →
      isErr (defaultExchanger rp provider (Except.ok (some tok)) keySet nonce)
        = true) ∧
    ((tok.signedByKey ∉ ksl ∨ tok.expValid = false ∨ tok.issuer ≠ rp.issuer ∨
        rp.clientID ∉ tok.audience) →
      isErr (defaultExchanger rp provider (Except.ok (some tok)) (Except.ok ksl)
        nonce) = true) ∧
    (defaultExchanger rp provider exchange keySet nonce = Except.ok c →
      ∃ tk kl, exchange = Except.ok (some tk) ∧ keySet = Except.ok kl ∧
        tk.signedByKey ∈ kl ∧ tk.expValid = true ∧ tk.issuer = rp.issuer ∧
        rp.clientID ∈ tk.audience ∧ tk.nonce = some nonce ∧ c.rawIDToken = tk) := by
  refine ⟨?_, ?_, ?_⟩
  · intro hn
    cases keySet with
    | error e => rfl
    | ok ks =>
        simp only [defaultExchanger]
        cases hv : verifyIDToken tok (some ⟨rp.issuer, rp.clientID, some ks,
            some nonce⟩) with
        | error e => rfl
        | ok idt =>
            exfalso
            by_cases hp : (tok.signedByKey ∈ ks ∧ tok.expValid = true ∧
                tok.issuer = rp.issuer ∧ rp.clientID ∈ tok.audience)
            · have hparse : jwtParseString ks rp.issuer rp.clientID tok =
                  Except.ok tok := by
                simp [jwtParseString, hp]
              rw [verifyIDToken] at hv
              simp only [hparse] at hv
              rcases hn with h | ⟨n, hn1, hn2⟩
              · rw [h] at hv
                simp [hnonce] at hv
              · rw [hn1] at hv
                simp [hnonce, hn2] at hv
            · have hparse : jwtParseString ks rp.issuer rp.clientID tok =
                  Except.error "jwt: verification failed" := by
                simp only [jwtParseString]
                rw [if_neg hp]
              rw [verifyIDToken] at hv
              simp only [hparse] at hv
              exact absurd hv (by simp)
  · intro hfail
    simp only [defaultExchanger]
    have hparse : jwtParseString ksl rp.issuer rp.clientID tok =
        Except.error "jwt: verification failed" := by
      simp only [jwtParseString]
      rw [if_neg]
      intro hp
      rcases hfail with h | h | h | h
      · exact h hp.1
      · rw [hp.2.1] at h; cases h
      · exact h hp.2.2.1
      · exact h hp.2.2.2
    have hv : verifyIDToken tok (some ⟨rp.issuer, rp.clientID, some ksl,
        some nonce⟩) = Except.error "jwt: verification failed" := by
      rw [verifyIDToken]
      simp only [hparse]
    simp only [hv]
    rfl
  · intro hok
    cases exchange with
    | error e => simp [defaultExchanger] at hok
    | ok otok =>
        cases otok with
        | none => simp [defaultExchanger] at hok
        | some tk =>
            cases keySet with
            | error e => simp [defaultExchanger] at hok
            | ok kl =>
                refine ⟨tk, kl, rfl, rfl, ?_⟩
                simp only [defaultExchanger] at hok
                cases hv : verifyIDToken tk (some ⟨rp.issuer, rp.clientID,
                    some kl, some nonce⟩) with
                | error e =>
                    rw [hv] at hok
                    simp at hok
                | ok idt =>
                    rw [hv] at hok
                    simp only [Except.ok.injEq] at hok
                    by_cases hp : (tk.signedByKey ∈ kl ∧ tk.expValid = true ∧
                        tk.issuer = rp.issuer ∧ rp.clientID ∈ tk.audience)
                    · have hparse : jwtParseString kl rp.issuer rp.clientID tk =
                          Except.ok tk := by
                        simp [jwtParseString, hp]
                      rw [verifyIDToken] at hv
                      simp only [hparse] at hv
                      refine ⟨hp.1, hp.2.1, hp.2.2.1, hp.2.2.2, ?_, ?_⟩
                      · cases hnc : tk.nonce with
                        | none =>
                            rw [hnc] at hv
                            simp [hnonce] at hv
                        | some n =>
                            rw [hnc] at hv
                            by_cases hne : n = nonce
                            · rw [hne]
                            · simp [hnonce, hne] at hv
                      · rw [← hok]
                    · have hparse : jwtParseString kl rp.issuer rp.clientID tk =
                          Except.error "jwt: verification failed" := by
                        simp only [jwtParseString]
                        rw [if_neg hp]
                      rw [verifyIDToken] at hv
                      simp only [hparse] at hv
                      exact absurd hv (by simp)

theorem c7_exchange_verifies_id_token_witness :
    isErr (defaultExchanger ⟨"https://iss", "cid", "j", "s", "r", [], "a", "t"⟩
      "google"
      (Except.ok (some ⟨"k1", "https://iss", ["cid"], true, none, "sub1",
        none, none, none, none⟩))
      (Except.ok ["k1"]) "n1") = true :=
  (c7_exchange_verifies_id_token
    ⟨"https://iss", "cid", "j", "s", "r", [], "a", "t"⟩ "google"
    ⟨"k1", "https://iss", ["cid"], true, none, "sub1", none, none, none, none⟩
    (Except.ok ["k1"]) ["k1"] (Except.ok none) "n1"
    ⟨"sub1", none, some false, none, none,
      ⟨"k1", "https://iss", ["cid"], true, none, "sub1", none, none, none, none⟩⟩
    (by decide)).1 (Or.inl rfl)

end Oidc

namespace Sessions

/-- C3 (spec-modelled): in a family holding the session rotated F0→F1→F2
plus a sibling device session, presenting F0 again matches neither tracked
slot of any non-revoked session, revokes every session in the family, and
returns the distinct reuse error; afterwards F0, F1 and F2 are all
rejected. -/
theorem c3_reuse_detection_revokes_family
    (sid sid2 fam f0 f1 f2 h0 g g2 : Nat)
    (h01 : f0 ≠ f1) (h02 : f0 ≠ f2) (h12 : f1 ≠ f2)
    (hh0 : h0 ≠ f0) (hh1 : h0 ≠ f1)
    (hsid : sid ≠ sid2) :
    rotate [⟨sid, fam, f0, none, false⟩, ⟨sid2, fam, h0, none, false⟩] fam f0 f1 =
      (RotateResult.ok f1,
       [⟨sid, fam, f1, some f0, false⟩, ⟨sid2, fam, h0, none, false⟩]) ∧
    rotate [⟨sid, fam, f1, some f0, false⟩, ⟨sid2, fam, h0, none, false⟩] fam f1 f2 =
      (RotateResult.ok f2,
       [⟨sid, fam, f2, some f1, false⟩, ⟨sid2, fam, h0, none, false⟩]) ∧
    rotate [⟨sid, fam, f2, some f1, false⟩, ⟨sid2, fam, h0, none, false⟩] fam f0 g =
      (RotateResult.reuseDetected,
       [⟨sid, fam, f2, some f1, true⟩, ⟨sid2, fam, h0, none, true⟩]) ∧
    (∀ fp, fp = f0 ∨ fp = f1 ∨ fp = f2 → ∀ nf,
      (rotate [⟨sid, fam, f2, some f1, true⟩, ⟨sid2, fam, h0, none, true⟩]
        fam fp g2).1 ≠ RotateResult.ok nf) := by
  have h10 : f1 ≠ f0 := Ne.symm h01
  have h20 : f2 ≠ f0 := Ne.symm h02
  have h21 : f2 ≠ f1 := Ne.symm h12
  have hsid' : sid2 ≠ sid := Ne.symm hsid
  refine ⟨?_, ?_, ?_, ?_⟩
  · simp [rotate, List.find?, hsid']
  · simp [rotate, List.find?, hsid', h10, hh1]
  · simp [rotate, List.find?, List.any, h20, hh0, h10]
  · intro fp hfp nf
    rcases hfp with h | h | h <;> subst h <;>
      simp [rotate, List.find?, List.any]

theorem c3_reuse_detection_revokes_family_witness :
    rotate [⟨1, 7, 10, none, false⟩, ⟨2, 7, 13, none, false⟩] 7 10 11 =
      (RotateResult.ok 11,
       [⟨1, 7, 11, some 10, false⟩, ⟨2, 7, 13, none, false⟩]) :=
  (c3_reuse_detection_revokes_family 1 2 7 10 11 12 13 14 15
    (by decide) (by decide) (by decide) (by decide) (by decide) (by decide)).1

end Sessions

namespace StrList

theorem splitOnChar_ne_nil (sep : Char) (s : List Char) : splitOnChar sep s ≠ [] := by
  cases s with
  | nil => simp [splitOnChar]
  | cons c cs =>
      by_cases h : c = sep
      · simp [splitOnChar, h]
      · simp only [splitOnChar, if_neg h]
        cases splitOnChar sep cs <;> simp

theorem splitOnChar_cons_of_ne (sep c : Char) (cs : List Char) (h : c ≠ sep) :
    ∃ l ls, splitOnChar sep cs = l :: ls ∧
      splitOnChar sep (c :: cs) = (c :: l) :: ls := by
  cases hsp : splitOnChar sep cs with
  | nil => exact absurd hsp (splitOnChar_ne_nil sep cs)
  | cons l ls =>
      refine ⟨l, ls, rfl, ?_⟩
      simp only [splitOnChar, if_neg h, hsp]

theorem splitOnChar_cons_sep (sep : Char) (cs : List Char) :
    splitOnChar sep (sep :: cs) = [] :: splitOnChar sep cs := by
  simp [splitOnChar]

theorem splitOnChar_append_sep (sep : Char) (a b : List Char) :
    splitOnChar sep (a ++ sep :: b) = splitOnChar sep a ++ splitOnChar sep b := by
  induction a with
  | nil => simp [splitOnChar]
  | cons c cs ih =>
      by_cases h : c = sep
      · subst h
        rw [List.cons_append, splitOnChar_cons_sep, splitOnChar_cons_sep, ih,
          List.cons_append]
      · obtain ⟨l, ls, hl, hc⟩ := splitOnChar_cons_of_ne sep c cs h
        obtain ⟨l2, ls2, hl2, hc2⟩ := splitOnChar_cons_of_ne sep c (cs ++ sep :: b) h
        rw [List.cons_append, hc2, hc]
        rw [ih, hl] at hl2
        simp only [List.cons_append] at hl2
        injection hl2 with e1 e2
        rw [List.cons_append, e1, e2]

theorem splitOnChar_of_not_mem (sep : Char) (a : List Char) (h : sep ∉ a) :
    splitOnChar sep a = [a] := by
  induction a with
  | nil => rfl
  | cons c cs ih =>
      simp only [List.mem_cons, not_or] at h
      obtain ⟨l, ls, hl, hc⟩ := splitOnChar_cons_of_ne sep c cs
        (fun hh => h.1 hh.symm)
      rw [hc]
      rw [ih h.2] at hl
      injection hl with e1 e2
      rw [e1, e2]

theorem joinChar_cons_cons (sep : Char) (l x : List Char) (ls : List (List Char)) :
    joinChar sep (l :: x :: ls) = l ++ sep :: joinChar sep (x :: ls) := rfl

theorem joinChar_splitOnChar (sep : Char) (s : List Char) :
    joinChar sep (splitOnChar sep s) = s := by
  induction s with
  | nil => rfl
  | cons c cs ih =>
      by_cases h : c = sep
      · subst h
        rw [splitOnChar_cons_sep]
        cases hsp : splitOnChar c cs with
        | nil => exact absurd hsp (splitOnChar_ne_nil c cs)
        | cons l ls =>
            rw [hsp] at ih
            rw [joinChar_cons_cons]
            rw [ih]
            rfl
      · obtain ⟨l, ls, hl, hc⟩ := splitOnChar_cons_of_ne sep c cs h
        rw [hc]
        rw [hl] at ih
        cases ls with
        | nil =>
            have : joinChar sep [l] = l := rfl
            rw [this] at ih
            show c :: l = c :: cs
            rw [ih]
        | cons x xs =>
            rw [joinChar_cons_cons] at ih
            rw [joinChar_cons_cons]
            show c :: (l ++ sep :: joinChar sep (x :: xs)) = c :: cs
            rw [ih]

end StrList

namespace Pwd

open StrList

theorem b64val_b64chr : ∀ n < 64, b64val (b64chr n) = some n := by decide

theorem b64chr_mem : ∀ n < 64, b64chr n ∈ b64chars := by decide

/-- Every emitted character is in the alphabet (out-of-range indices hit the
getD default, which is also in the alphabet). -/
theorem b64chr_mem_all (n : Nat) : b64chr n ∈ b64chars := by
  by_cases h : n < 64
  · exact b64chr_mem n h
  · have : b64chr n = 'A' := by
      unfold b64chr
      rw [List.getD_eq_default]
      have : b64chars.length = 64 := by decide
      omega
    rw [this]
    decide

theorem dollar_not_b64 : '$' ∉ b64chars := by decide

theorem b64encode_chars (bs : List Nat) :
    ∀ c ∈ b64encode bs, c ∈ b64chars := by
  induction bs using b64encode.induct with
  | case1 => simp [b64encode]
  | case2 b1 =>
      intro c hc
      simp only [b64encode, List.mem_cons, List.not_mem_nil, or_false] at hc
      rcases hc with h | h <;> (subst h; exact b64chr_mem_all _)
  | case3 b1 b2 =>
      intro c hc
      simp only [b64encode, List.mem_cons, List.not_mem_nil, or_false] at hc
      rcases hc with h | h | h <;> (subst h; exact b64chr_mem_all _)
  | case4 b1 b2 b3 rest ih =>
      intro c hc
      simp only [b64encode, List.mem_cons] at hc
      rcases hc with h | h | h | h | h
      · subst h; exact b64chr_mem_all _
      · subst h; exact b64chr_mem_all _
      · subst h; exact b64chr_mem_all _
      · subst h; exact b64chr_mem_all _
      · exact ih c h

theorem b64decode_encode (bs : List Nat) (hb : ∀ b ∈ bs, b < 256) :
    b64decode (b64encode bs) = some bs := by
  induction bs using b64encode.induct with
  | case1 => rfl
  | case2 b1 =>
      have h1 : b1 < 256 := hb b1 (by simp)
      simp only [b64encode, b64decode]
      rw [b64val_b64chr _ (by omega), b64val_b64chr _ (by omega)]
      have hmod : (b1 % 4 * 16) % 16 = 0 := by omega
      simp [hmod]
      omega
  | case3 b1 b2 =>
      have h1 : b1 < 256 := hb b1 (by simp)
      have h2 : b2 < 256 := hb b2 (by simp)
      simp only [b64encode, b64decode]
      rw [b64val_b64chr _ (by omega), b64val_b64chr _ (by omega),
        b64val_b64chr _ (by omega)]
      have hmod : (b2 % 16 * 4) % 4 = 0 := by omega
      simp [hmod]
      constructor <;> omega
  | case4 b1 b2 b3 rest ih =>
      have h1 : b1 < 256 := hb b1 (by simp)
      have h2 : b2 < 256 := hb b2 (by simp)
      have h3 : b3 < 256 := hb b3 (by simp)
      have hrest : ∀ b ∈ rest, b < 256 := fun b h => hb b (by simp [h])
      -- the encoded tail has 4 leading characters, so decode takes the
      -- 4-character branch regardless of rest
      simp only [b64encode, b64decode]
      rw [b64val_b64chr _ (by omega), b64val_b64chr _ (by omega),
        b64val_b64chr _ (by omega), b64val_b64chr _ (by omega)]
      rw [ih hrest]
      simp
      refine ⟨?_, ?_, ?_⟩ <;> omega

theorem digitVal_digitChr : ∀ d < 10, digitVal (digitChr d) = d := by decide

theorem isDigitB_digitChr : ∀ d < 10, isDigitB (digitChr d) = true := by decide

theorem digit_ne_dollar (c : Char) (h : isDigitB c = true) : c ≠ '$' := by
  intro he
  subst he
  exact absurd h (by decide)

theorem natDigits_ne_nil (n : Nat) : natDigits n ≠ [] := by
  unfold natDigits natDigitsAux
  split <;> simp

theorem natDigitsAux_digits : ∀ fuel n, n < fuel →
    ∀ c ∈ natDigitsAux fuel n, isDigitB c = true := by
  intro fuel
  induction fuel with
  | zero => intro n h; omega
  | succ f ih =>
      intro n h c hc
      simp only [natDigitsAux] at hc
      split at hc
      · rename_i h10
        simp only [List.mem_singleton] at hc
        subst hc
        exact isDigitB_digitChr n (by omega)
      · rename_i h10
        have hdiv : n / 10 < n := Nat.div_lt_self (by omega) (by omega)
        rcases List.mem_append.mp hc with h2 | h2
        · exact ih (n / 10) (by omega) c h2
        · simp only [List.mem_singleton] at h2
          subst h2
          exact isDigitB_digitChr _ (by omega)

theorem natDigits_digits (n : Nat) : ∀ c ∈ natDigits n, isDigitB c = true :=
  natDigitsAux_digits (n + 1) n (by omega)

theorem parseNat_append_one (a : List Char) (c : Char) :
    parseNat (a ++ [c]) = parseNat a * 10 + digitVal c := by
  simp [parseNat, List.foldl_append]

theorem parseNat_natDigitsAux : ∀ fuel n, n < fuel →
    parseNat (natDigitsAux fuel n) = n := by
  intro fuel
  induction fuel with
  | zero => intro n h; omega
  | succ f ih =>
      intro n h
      simp only [natDigitsAux]
      split
      · rename_i h10
        simp only [parseNat, List.foldl_cons, List.foldl_nil]
        rw [digitVal_digitChr n (by omega)]
        omega
      · rename_i h10
        have hdiv : n / 10 < n := Nat.div_lt_self (by omega) (by omega)
        rw [parseNat_append_one, ih (n / 10) (by omega),
          digitVal_digitChr _ (by omega)]
        omega

theorem parseNat_natDigits (n : Nat) : parseNat (natDigits n) = n :=
  parseNat_natDigitsAux (n + 1) n (by omega)

theorem takeWhile_all {α : Type} (p : α → Bool) (a : List α)
    (ha : ∀ c ∈ a, p c = true) : a.takeWhile p = a := by
  induction a with
  | nil => rfl
  | cons c cs ih =>
      rw [List.takeWhile_cons, if_pos (ha c (by simp))]
      rw [ih (fun x hx => ha x (by simp [hx]))]

theorem takeWhile_append_not {α : Type} (p : α → Bool) (a : List α) (x : α)
    (b : List α) (ha : ∀ c ∈ a, p c = true) (hx : p x = false) :
    (a ++ x :: b).takeWhile p = a ∧ (a ++ x :: b).dropWhile p = x :: b := by
  induction a with
  | nil =>
      constructor
      · rw [List.nil_append, List.takeWhile_cons, if_neg (by rw [hx]; simp)]
      · rw [List.nil_append, List.dropWhile_cons, if_neg (by rw [hx]; simp)]
  | cons c cs ih =>
      have hc : p c = true := ha c (by simp)
      obtain ⟨ih1, ih2⟩ := ih (fun y hy => ha y (by simp [hy]))
      constructor
      · rw [List.cons_append, List.takeWhile_cons, if_pos hc, ih1]
      · rw [List.cons_append, List.dropWhile_cons, if_pos hc, ih2]

theorem dropLit_exact (lit rest : List Char) :
    dropLit lit (lit ++ rest) = some rest := by
  unfold dropLit
  rw [if_pos]
  · rw [List.drop_left]
  · rw [List.isPrefixOf_iff_prefix]
    exact ⟨rest, rfl⟩

theorem scanParams_roundtrip (m t th : Nat) :
    scanParams ('m' :: '=' :: natDigits m ++ ',' :: 't' :: '=' :: natDigits t
      ++ ',' :: 'p' :: '=' :: natDigits th) = some (m, t, th) := by
  unfold scanParams
  rw [show ('m' :: '=' :: natDigits m ++ ',' :: 't' :: '=' :: natDigits t
        ++ ',' :: 'p' :: '=' :: natDigits th) =
      (('m' :: '=' :: []) ++ (natDigits m ++ ',' :: 't' :: '=' :: natDigits t
        ++ ',' :: 'p' :: '=' :: natDigits th)) from rfl]
  rw [dropLit_exact]
  dsimp only
  have hcomma : isDigitB ',' = false := by decide
  obtain ⟨htw1, hdw1⟩ := takeWhile_append_not isDigitB (natDigits m) ','
    ('t' :: '=' :: natDigits t ++ ',' :: 'p' :: '=' :: natDigits th)
    (natDigits_digits m) hcomma
  rw [show (natDigits m ++ ',' :: 't' :: '=' :: natDigits t
        ++ ',' :: 'p' :: '=' :: natDigits th) =
      (natDigits m ++ ',' :: ('t' :: '=' :: natDigits t
        ++ ',' :: 'p' :: '=' :: natDigits th)) from by simp]
  rw [htw1, hdw1]
  rw [if_neg (natDigits_ne_nil m)]
  rw [show (',' :: ('t' :: '=' :: natDigits t ++ ',' :: 'p' :: '=' :: natDigits th)) =
      ((',' :: 't' :: '=' :: []) ++ (natDigits t ++ ',' :: 'p' :: '=' :: natDigits th))
      from rfl]
  rw [dropLit_exact]
  dsimp only
  obtain ⟨htw2, hdw2⟩ := takeWhile_append_not isDigitB (natDigits t) ','
    ('p' :: '=' :: natDigits th) (natDigits_digits t) hcomma
  rw [show (natDigits t ++ ',' :: 'p' :: '=' :: natDigits th) =
      (natDigits t ++ ',' :: ('p' :: '=' :: natDigits th)) from by simp]
  rw [htw2, hdw2]
  rw [if_neg (natDigits_ne_nil t)]
  rw [show (',' :: ('p' :: '=' :: natDigits th)) =
      ((',' :: 'p' :: '=' :: []) ++ natDigits th) from rfl]
  rw [dropLit_exact]
  dsimp only
  rw [takeWhile_all isDigitB (natDigits th) (natDigits_digits th)]
  rw [if_neg (natDigits_ne_nil th)]
  rw [parseNat_natDigits, parseNat_natDigits, parseNat_natDigits]

theorem params_seg_no_dollar (m t th : Nat) :
    '$' ∉ ('m' :: '=' :: natDigits m ++ ',' :: 't' :: '=' :: natDigits t
      ++ ',' :: 'p' :: '=' :: natDigits th) := by
  have hdig : ∀ n : Nat, '$' ∉ natDigits n := by
    intro n h
    exact digit_ne_dollar '$' (natDigits_digits n '$' h) rfl
  intro hmem
  rcases List.mem_cons.mp hmem with h | hmem
  · exact absurd h (by decide)
  rcases List.mem_cons.mp hmem with h | hmem
  · exact absurd h (by decide)
  rcases List.mem_append.mp hmem with hmem | hmem
  · rcases List.mem_append.mp hmem with h | hmem
    · exact hdig m h
    rcases List.mem_cons.mp hmem with h | hmem
    · exact absurd h (by decide)
    rcases List.mem_cons.mp hmem with h | hmem
    · exact absurd h (by decide)
    rcases List.mem_cons.mp hmem with h | hmem
    · exact absurd h (by decide)
    exact hdig t hmem
  · rcases List.mem_cons.mp hmem with h | hmem
    · exact absurd h (by decide)
    rcases List.mem_cons.mp hmem with h | hmem
    · exact absurd h (by decide)
    rcases List.mem_cons.mp hmem with h | hmem
    · exact absurd h (by decide)
    exact hdig th hmem

theorem b64encode_no_dollar (bs : List Nat) : '$' ∉ b64encode bs :=
  fun hmem => dollar_not_b64 (b64encode_chars bs '$' hmem)

theorem phcEncode_shape (p : Params) (salt sum : List Nat) :
    phcEncode p salt sum = '$' :: ("argon2id".toList ++ '$' :: ("v=19".toList ++ '$' ::
      (('m' :: '=' :: natDigits p.mem ++ ',' :: 't' :: '=' :: natDigits p.time
        ++ ',' :: 'p' :: '=' :: natDigits p.threads) ++ '$' ::
        (b64encode salt ++ '$' :: b64encode sum)))) := by
  simp [phcEncode]

theorem phc_parts (p : Params) (salt sum : List Nat) :
    splitOnChar '$' (phcEncode p salt sum) =
      [[], "argon2id".toList, "v=19".toList,
       'm' :: '=' :: natDigits p.mem ++ ',' :: 't' :: '=' :: natDigits p.time
         ++ ',' :: 'p' :: '=' :: natDigits p.threads,
       b64encode salt, b64encode sum] := by
  rw [phcEncode_shape, splitOnChar_cons_sep, splitOnChar_append_sep,
    splitOnChar_append_sep, splitOnChar_append_sep, splitOnChar_append_sep]
  rw [splitOnChar_of_not_mem _ _ (by decide : '$' ∉ "argon2id".toList)]
  rw [splitOnChar_of_not_mem _ _ (by decide : '$' ∉ "v=19".toList)]
  rw [splitOnChar_of_not_mem _ _ (params_seg_no_dollar p.mem p.time p.threads)]
  rw [splitOnChar_of_not_mem _ _ (b64encode_no_dollar salt)]
  rw [splitOnChar_of_not_mem _ _ (b64encode_no_dollar sum)]
  rfl

theorem phcDecode_phcEncode (p : Params) (salt sum : List Nat)
    (hsalt : ∀ b ∈ salt, b < 256) (hsum : ∀ b ∈ sum, b < 256) :
    phcDecode (phcEncode p salt sum) =
      some (⟨p.time, p.mem, p.threads % 256, salt.length, sum.length⟩, salt, sum) := by
  unfold phcDecode
  rw [phc_parts p salt sum]
  rw [if_pos ⟨rfl, rfl⟩]
  rw [show ([[], "argon2id".toList, "v=19".toList,
       'm' :: '=' :: natDigits p.mem ++ ',' :: 't' :: '=' :: natDigits p.time
         ++ ',' :: 'p' :: '=' :: natDigits p.threads,
       b64encode salt, b64encode sum].getD 3 []) =
      ('m' :: '=' :: natDigits p.mem ++ ',' :: 't' :: '=' :: natDigits p.time
         ++ ',' :: 'p' :: '=' :: natDigits p.threads) from rfl]
  rw [scanParams_roundtrip p.mem p.time p.threads]
  rw [show ([[], "argon2id".toList, "v=19".toList,
       'm' :: '=' :: natDigits p.mem ++ ',' :: 't' :: '=' :: natDigits p.time
         ++ ',' :: 'p' :: '=' :: natDigits p.threads,
       b64encode salt, b64encode sum].getD 4 []) = b64encode salt from rfl]
  rw [show ([[], "argon2id".toList, "v=19".toList,
       'm' :: '=' :: natDigits p.mem ++ ',' :: 't' :: '=' :: natDigits p.time
         ++ ',' :: 'p' :: '=' :: natDigits p.threads,
       b64encode salt, b64encode sum].getD 5 []) = b64encode sum from rfl]
  rw [b64decode_encode salt hsalt, b64decode_encode sum hsum]

/-- C8: phcDecode is a left inverse of phcEncode (parameters, salt and
digest all recovered), and hashing with HashArgon2id followed by verifying
the same plaintext yields (true, nil); with the key derivation modelled as
an arbitrary function of (password, salt, parameters), determinism under a
fixed salt and parameters is inherent, exactly what verification relies
on. -/
theorem c8_hash_verify_roundtrip (idKey : IDKeyFun)
    (hlen : ∀ pw s t m th kl, (idKey pw s t m th kl).length = kl)
    (hbytes : ∀ pw s t m th kl, ∀ b ∈ idKey pw s t m th kl, b < 256)
    (password salt : List Nat) (hsalt : ∀ b ∈ salt, b < 256)
    (p : Params) (sum : List Nat) (hth : p.threads < 256)
    (hsum : ∀ b ∈ sum, b < 256)
    (hps : p.saltLen = salt.length) (hks : p.keyLen = sum.length) :
    phcDecode (phcEncode p salt sum) = some (p, salt, sum) ∧
    verifyArgon2idWith idKey (hashArgon2idWith idKey password salt) password =
      some true := by
  constructor
  · rw [phcDecode_phcEncode p salt sum hsalt hsum]
    obtain ⟨pt, pm, pth, psl, pkl⟩ := p
    simp only at hth hps hks
    rw [Nat.mod_eq_of_lt hth, ← hps, ← hks]
  · unfold hashArgon2idWith verifyArgon2idWith
    rw [phcDecode_phcEncode defaultParams salt _ hsalt
      (hbytes password salt defaultParams.time defaultParams.mem
        defaultParams.threads defaultParams.keyLen)]
    dsimp only [defaultParams]
    rw [hlen password salt 1 (64 * 1024) 1 32]
    rw [show ((1 : Nat) % 256) = 1 from rfl]
    simp
    exact hlen password salt 1 65536 1 32

theorem c8_hash_verify_roundtrip_witness :
    phcDecode (phcEncode ⟨1, 64 * 1024, 1, 2, 3⟩ [7, 8] [9, 10, 11]) =
      some (⟨1, 64 * 1024, 1, 2, 3⟩, [7, 8], [9, 10, 11]) :=
  (c8_hash_verify_roundtrip (fun _ _ _ _ _ kl => List.replicate kl 0)
    (fun _ _ _ _ _ kl => List.length_replicate kl 0)
    (fun _ _ _ _ _ _ b hb => by
      rw [List.eq_of_mem_replicate hb]
      omega)
    [1, 2] [7, 8] (by decide)
    ⟨1, 64 * 1024, 1, 2, 3⟩ [9, 10, 11] (by decide) (by decide)
    (by decide) (by decide)).1

end Pwd

namespace Siws

open StrList

/-- C1 counterexample: an input that is valid in the claim's sense (all
required fields non-empty, no optional field present) whose address carries
a leading space; parsing the constructed message returns the trimmed
address, so the round-trip does not reproduce the original input. -/
theorem c1_counterexample :
    parseMessage (constructMessage
        ⟨"example.com".toList, ' ' :: "addr".toList, none, none, none, none,
          "12345678".toList, "2024-01-01T00:00:00Z".toList, none, none, none, []⟩) =
      Except.ok
        ⟨"example.com".toList, "addr".toList, none, none, none, none,
          "12345678".toList, "2024-01-01T00:00:00Z".toList, none, none, none, []⟩ ∧
    (⟨"example.com".toList, "addr".toList, none, none, none, none,
        "12345678".toList, "2024-01-01T00:00:00Z".toList, none, none, none, []⟩ :
      SignInInput) ≠
      ⟨"example.com".toList, ' ' :: "addr".toList, none, none, none, none,
        "12345678".toList, "2024-01-01T00:00:00Z".toList, none, none, none, []⟩ ∧
    ("example.com".toList : Str) ≠ [] ∧ (' ' :: "addr".toList : Str) ≠ [] ∧
    ("12345678".toList : Str) ≠ [] ∧ ("2024-01-01T00:00:00Z".toList : Str) ≠ [] := by
  refine ⟨rfl, by decide, by decide, by decide, by decide, by decide⟩

theorem splitOnChar_no_sep (sep : Char) (s : List Char) :
    ∀ l ∈ splitOnChar sep s, sep ∉ l := by
  induction s with
  | nil =>
      intro l hl
      simp only [splitOnChar, List.mem_singleton] at hl
      subst hl; simp
  | cons c cs ih =>
      intro l hl
      by_cases h : c = sep
      · subst h
        rw [splitOnChar_cons_sep] at hl
        rcases List.mem_cons.mp hl with h2 | h2
        · subst h2; simp
        · exact ih l h2
      · obtain ⟨x, xs, hx, hc⟩ := splitOnChar_cons_of_ne sep c cs h
        rw [hc] at hl
        rcases List.mem_cons.mp hl with h2 | h2
        · subst h2
          intro hmem
          rcases List.mem_cons.mp hmem with h3 | h3
          · exact h h3.symm
          · exact ih x (by rw [hx]; exact List.mem_cons_self x xs) h3
        · exact ih l (by rw [hx]; exact List.mem_cons_of_mem x h2)

theorem nlJoin_append (xs ys : List Str) :
    nlJoin (xs ++ ys) = nlJoin xs ++ nlJoin ys := by
  simp [nlJoin]

theorem nlJoin_cons (l : Str) (ls : List Str) :
    nlJoin (l :: ls) = '\n' :: (l ++ nlJoin ls) := by
  simp [nlJoin]

theorem joinChar_cons_nlJoin (a : Str) (rest : List Str) :
    joinChar '\n' (a :: rest) = a ++ nlJoin rest := by
  induction rest generalizing a with
  | nil => simp [joinChar, nlJoin]
  | cons r rs ih =>
      rw [joinChar_cons_cons, ih r, nlJoin_cons]

theorem nlJoin_split (s : Str) :
    nlJoin (splitOnChar '\n' s) = '\n' :: s := by
  cases hsp : splitOnChar '\n' s with
  | nil => exact absurd hsp (splitOnChar_ne_nil _ s)
  | cons l ls =>
      rw [nlJoin_cons]
      have h2 : joinChar '\n' (l :: ls) = s := by
        rw [← hsp]; exact joinChar_splitOnChar _ s
      rw [joinChar_cons_nlJoin] at h2
      rw [h2]

theorem split_nlJoin (ls : List Str) (h : ∀ l ∈ ls, '\n' ∉ l) :
    ∀ a : Str, '\n' ∉ a → splitOnChar '\n' (a ++ nlJoin ls) = a :: ls := by
  induction ls with
  | nil =>
      intro a ha
      rw [show nlJoin [] = [] from rfl, List.append_nil,
        splitOnChar_of_not_mem _ _ ha]
  | cons l rest ih =>
      intro a ha
      rw [nlJoin_cons, splitOnChar_append_sep, splitOnChar_of_not_mem _ _ ha,
        ih (fun x hx => h x (List.mem_cons_of_mem l hx)) l
          (h l (List.mem_cons_self l rest))]
      rfl

theorem noNL_iff (s : Str) : noNL s = true ↔ '\n' ∉ s := by
  simp [noNL]

theorem rdropWhile_append_if (p : Char → Bool) (x y : List Char) :
    (x ++ y).rdropWhile p =
      if (y.rdropWhile p).isEmpty then x.rdropWhile p else x ++ y.rdropWhile p := by
  simp only [List.rdropWhile, List.reverse_append, List.dropWhile_append]
  by_cases h : (y.reverse.dropWhile p).isEmpty
  · rw [if_pos h, if_pos]
    rwa [List.isEmpty_iff, List.reverse_eq_nil_iff, ← List.isEmpty_iff]
  · rw [if_neg h, if_neg, List.reverse_append, List.reverse_reverse]
    rw [List.isEmpty_iff, List.reverse_eq_nil_iff, ← List.isEmpty_iff]
    exact h

theorem dropWhile_keep (c : Char) (w : List Char) (hc : isSpaceB c = false) :
    (c :: w).dropWhile isSpaceB = c :: w := by
  rw [List.dropWhile_cons, if_neg (by simp [hc])]

theorem trim_dropWhile (s : Str) (h : trimSpace s = s) :
    s.dropWhile isSpaceB = s := by
  have h1 : (s.dropWhile isSpaceB).length ≤ s.length :=
    (List.dropWhile_sublist _).length_le
  have h2 : ((s.dropWhile isSpaceB).rdropWhile isSpaceB).length ≤
      (s.dropWhile isSpaceB).length :=
    (List.rdropWhile_prefix isSpaceB _).sublist.length_le
  rw [show (s.dropWhile isSpaceB).rdropWhile isSpaceB = trimSpace s from rfl, h] at h2
  exact (List.dropWhile_sublist _).eq_of_length (by omega)

theorem trim_rdropWhile (s : Str) (h : trimSpace s = s) :
    s.rdropWhile isSpaceB = s := by
  have := h
  unfold trimSpace at this
  rwa [trim_dropWhile s h] at this

theorem head_not_space (c : Char) (w : List Char)
    (h : trimSpace (c :: w) = c :: w) : isSpaceB c = false := by
  by_contra hc
  have hd := trim_dropWhile (c :: w) h
  rw [List.dropWhile_cons, if_pos (by simpa using hc)] at hd
  have := (List.dropWhile_sublist (l := w) (p := isSpaceB)).length_le
  rw [hd] at this
  simp at this

theorem trim_append_nl (s : Str) (hne : s ≠ []) (h : trimSpace s = s) :
    trimSpace (s ++ ['\n']) = s := by
  unfold trimSpace
  rw [List.dropWhile_append,
    if_neg (by rw [trim_dropWhile s h]; simpa [List.isEmpty_iff] using hne)]
  rw [trim_dropWhile s h, List.rdropWhile_concat, if_pos (by decide),
    trim_rdropWhile s h]

theorem trimSpace_cons_ne_nil (c : Char) (w : List Char)
    (hc : isSpaceB c = false) : trimSpace (c :: w) ≠ [] := by
  unfold trimSpace
  rw [dropWhile_keep c w hc]
  intro hnil
  have := List.rdropWhile_eq_nil_iff.mp hnil c (List.mem_cons_self c w)
  rw [hc] at this
  exact absurd this (by decide)

theorem scan_prefix_trim (sc w : List Char) (hne : sc ≠ [])
    (hd : sc.dropWhile isSpaceB = sc) (hr : sc.rdropWhile isSpaceB = sc) :
    sc.isPrefixOf (trimSpace (sc ++ w)) = true := by
  unfold trimSpace
  rw [List.dropWhile_append, if_neg (by rw [hd]; simpa [List.isEmpty_iff] using hne)]
  rw [hd, rdropWhile_append_if]
  rw [List.isPrefixOf_iff_prefix]
  by_cases hw : (w.rdropWhile isSpaceB).isEmpty
  · rw [if_pos hw, hr]
  · rw [if_neg hw]
    exact List.prefix_append sc _

theorem nlJoin_optLines (lbl : Str) (o : Option Str) :
    nlJoin (optLines lbl o) = optFieldFlat lbl o := by
  cases o with
  | none => rfl
  | some s =>
      by_cases h : s = [] <;> simp [optLines, optFieldFlat, h, nlJoin]

theorem nlJoin_resLines (rs : List Str) :
    nlJoin (if rs = [] then [] else lblRes :: rs.map (fun r => lblDash ++ r)) =
      (if rs = [] then []
       else '\n' :: (lblRes ++ (rs.map (fun r => '\n' :: (lblDash ++ r))).flatten)) := by
  by_cases h : rs = []
  · simp [h, nlJoin]
  · rw [if_neg h, if_neg h, nlJoin_cons]
    congr 2
    simp only [nlJoin, List.map_map]
    congr 1

theorem nlJoin_stmtBlock (o : Option Str) :
    nlJoin (stmtBlock o) =
      (match o with
       | some s => if s = [] then [] else '\n' :: '\n' :: s
       | none => []) := by
  cases o with
  | none => rfl
  | some s =>
      show nlJoin (if s = [] then [] else [] :: splitOnChar '\n' s) =
        if s = [] then [] else '\n' :: '\n' :: s
      by_cases h : s = []
      · simp [h, nlJoin]
      · rw [if_neg h, if_neg h, nlJoin_cons, nlJoin_split]
        rfl

theorem constructMessage_eq (i : SignInInput) :
    constructMessage i =
      (i.domain ++ headerSuffix) ++
        nlJoin (i.address :: (stmtBlock i.statement ++ ([[]] ++ fieldLines i))) := by
  rw [nlJoin_cons, nlJoin_append, nlJoin_append, nlJoin_stmtBlock]
  rw [show nlJoin [[]] = ['\n'] from rfl]
  unfold fieldLines
  rw [nlJoin_append, nlJoin_optLines, nlJoin_append, nlJoin_optLines,
    nlJoin_append, nlJoin_optLines, nlJoin_cons, nlJoin_cons,
    nlJoin_append, nlJoin_optLines, nlJoin_append, nlJoin_optLines,
    nlJoin_append, nlJoin_optLines, nlJoin_resLines]
  unfold constructMessage
  simp [List.append_assoc]

theorem parseHeader_append (d : Str) (hd : d ≠ []) :
    parseHeader (d ++ headerSuffix) = some d := by
  unfold parseHeader
  rw [if_pos]
  · congr 1
    rw [show (d ++ headerSuffix).length - headerSuffix.length = d.length from by
      simp [List.length_append]]
    exact List.take_left d headerSuffix
  · refine ⟨?_, ?_⟩
    · rw [List.isSuffixOf_iff_suffix]
      exact ⟨d, rfl⟩
    · have := List.length_pos.mpr hd
      simp only [List.length_append]
      omega

theorem isFieldStart_uri (v : Str) : isFieldStart (lblURI ++ v) = true := by
  have h : scanURI.isPrefixOf (trimSpace (scanURI ++ (' ' :: v))) = true :=
    scan_prefix_trim scanURI (' ' :: v) (by decide) (by decide) (by decide)
  rw [show lblURI ++ v = scanURI ++ (' ' :: v) from rfl]
  simp [isFieldStart, h]

theorem isFieldStart_ver (v : Str) : isFieldStart (lblVer ++ v) = true := by
  have h : scanVer.isPrefixOf (trimSpace (scanVer ++ (' ' :: v))) = true :=
    scan_prefix_trim scanVer (' ' :: v) (by decide) (by decide) (by decide)
  rw [show lblVer ++ v = scanVer ++ (' ' :: v) from rfl]
  simp [isFieldStart, h]

theorem isFieldStart_chain (v : Str) : isFieldStart (lblChain ++ v) = true := by
  have h : scanChain.isPrefixOf (trimSpace (scanChain ++ (' ' :: v))) = true :=
    scan_prefix_trim scanChain (' ' :: v) (by decide) (by decide) (by decide)
  rw [show lblChain ++ v = scanChain ++ (' ' :: v) from rfl]
  simp [isFieldStart, h]

theorem isFieldStart_nonce (v : Str) : isFieldStart (lblNonce ++ v) = true := by
  have h : scanNonce.isPrefixOf (trimSpace (scanNonce ++ (' ' :: v))) = true :=
    scan_prefix_trim scanNonce (' ' :: v) (by decide) (by decide) (by decide)
  rw [show lblNonce ++ v = scanNonce ++ (' ' :: v) from rfl]
  simp [isFieldStart, h]

theorem fieldLines_shape (i : SignInInput)
    (hu : validOpt i.uri = true) (hv : validOpt i.version = true)
    (hc : validOpt i.chainID = true) :
    ∃ l rest, fieldLines i = l :: rest ∧ isFieldStart l = true := by
  unfold fieldLines
  cases hiu : i.uri with
  | some u =>
      rw [hiu] at hu
      simp only [validOpt, Bool.and_eq_true, decide_eq_true_eq] at hu
      rw [show optLines lblURI (some u) = [lblURI ++ u] from by
        simp [optLines, hu.1]]
      exact ⟨lblURI ++ u, _, rfl, isFieldStart_uri u⟩
  | none =>
      rw [show optLines lblURI none = [] from rfl, List.nil_append]
      cases hiv : i.version with
      | some v =>
          rw [hiv] at hv
          simp only [validOpt, Bool.and_eq_true, decide_eq_true_eq] at hv
          rw [show optLines lblVer (some v) = [lblVer ++ v] from by
            simp [optLines, hv.1]]
          exact ⟨lblVer ++ v, _, rfl, isFieldStart_ver v⟩
      | none =>
          rw [show optLines lblVer none = [] from rfl, List.nil_append]
          cases hic : i.chainID with
          | some cid =>
              rw [hic] at hc
              simp only [validOpt, Bool.and_eq_true, decide_eq_true_eq] at hc
              rw [show optLines lblChain (some cid) = [lblChain ++ cid] from by
                simp [optLines, hc.1]]
              exact ⟨lblChain ++ cid, _, rfl, isFieldStart_chain cid⟩
          | none =>
              rw [show optLines lblChain none = [] from rfl, List.nil_append]
              exact ⟨lblNonce ++ i.nonce, _, rfl, isFieldStart_nonce i.nonce⟩

theorem findFieldsStart_append (pre : List Str) (l : Str) (rest : List Str)
    (hpre : ∀ x ∈ pre, isFieldStart x = false) (hl : isFieldStart l = true) :
    findFieldsStart (pre ++ l :: rest) = some pre.length := by
  induction pre with
  | nil => simp [findFieldsStart, hl]
  | cons a as ih =>
      rw [List.cons_append]
      simp only [findFieldsStart]
      rw [if_neg (by rw [hpre a (List.mem_cons_self a as)]; simp)]
      rw [ih (fun x hx => hpre x (List.mem_cons_of_mem a hx))]
      simp [List.length_cons]

theorem extractStatement_absent : extractStatement [[]] = none := by decide

theorem extractStatement_stmt (s : Str) (hne : s ≠ [])
    (htrim : trimSpace s = s) :
    extractStatement (([] :: splitOnChar '\n' s) ++ [[]]) = some s := by
  obtain ⟨c, w, hs⟩ : ∃ c w, s = c :: w := by
    cases s with
    | nil => exact absurd rfl hne
    | cons c w => exact ⟨c, w, rfl⟩
  have hc : isSpaceB c = false := head_not_space c w (hs ▸ htrim)
  have hcnl : c ≠ '\n' := by
    intro h; rw [h] at hc; exact absurd hc (by decide)
  obtain ⟨l, ls, hl, hsp⟩ := splitOnChar_cons_of_ne '\n' c w hcnl
  have hdw : List.dropWhile (fun x : Str => decide (trimSpace x = []))
      (([] :: (c :: l) :: ls) ++ [[]]) = (c :: l) :: (ls ++ [[]]) := by
    rw [List.cons_append, List.dropWhile_cons_of_pos (by decide),
      List.cons_append,
      List.dropWhile_cons_of_neg (by simp [trimSpace_cons_ne_nil c l hc])]
  have h2 : (c :: l) ++ nlJoin ls = s := by
    rw [← joinChar_cons_nlJoin, ← hsp, hs]
    exact joinChar_splitOnChar '\n' (c :: w)
  have hjoin : joinChar '\n' ((c :: l) :: (ls ++ [[]])) = s ++ ['\n'] := by
    rw [joinChar_cons_nlJoin, nlJoin_append,
      show nlJoin [[]] = ['\n'] from rfl, ← List.append_assoc, h2]
  simp only [extractStatement]
  rw [hs] at hjoin ⊢
  rw [hsp, hdw, if_pos (by simp), hjoin,
    trim_append_nl (c :: w) (hs ▸ hne) (hs ▸ htrim), if_neg (hs ▸ hne)]

theorem parseFields_uri (o : Option Str) (rest res : List Str) (inp : SignInInput)
    (ho : validOpt o = true) (hinp : inp.uri = none) :
    parseFields (optLines lblURI o ++ rest) false res inp =
      parseFields rest false res { inp with uri := o } := by
  cases o with
  | none => rw [show optLines lblURI none = [] from rfl, List.nil_append, ← hinp]
  | some v =>
      simp only [validOpt, Bool.and_eq_true, decide_eq_true_eq] at ho
      rw [show optLines lblURI (some v) = [lblURI ++ v] from by simp [optLines, ho.1],
        List.singleton_append]
      simp only [parseFields]
      rw [if_neg (by simp),
        if_neg (by simp [lblRes, lblURI, List.isPrefixOf]),
        if_pos (by rw [List.isPrefixOf_iff_prefix]; exact List.prefix_append _ _),
        List.drop_left]

theorem parseFields_ver (o : Option Str) (rest res : List Str) (inp : SignInInput)
    (ho : validOpt o = true) (hinp : inp.version = none) :
    parseFields (optLines lblVer o ++ rest) false res inp =
      parseFields rest false res { inp with version := o } := by
  cases o with
  | none => rw [show optLines lblVer none = [] from rfl, List.nil_append, ← hinp]
  | some v =>
      simp only [validOpt, Bool.and_eq_true, decide_eq_true_eq] at ho
      rw [show optLines lblVer (some v) = [lblVer ++ v] from by simp [optLines, ho.1],
        List.singleton_append]
      simp only [parseFields]
      rw [if_neg (by simp),
        if_neg (by simp [lblRes, lblVer, List.isPrefixOf]),
        if_neg (by simp [lblURI, lblVer, List.isPrefixOf]),
        if_pos (by rw [List.isPrefixOf_iff_prefix]; exact List.prefix_append _ _),
        List.drop_left]

theorem parseFields_chain (o : Option Str) (rest res : List Str) (inp : SignInInput)
    (ho : validOpt o = true) (hinp : inp.chainID = none) :
    parseFields (optLines lblChain o ++ rest) false res inp =
      parseFields rest false res { inp with chainID := o } := by
  cases o with
  | none => rw [show optLines lblChain none = [] from rfl, List.nil_append, ← hinp]
  | some v =>
      simp only [validOpt, Bool.and_eq_true, decide_eq_true_eq] at ho
      rw [show optLines lblChain (some v) = [lblChain ++ v] from by
          simp [optLines, ho.1],
        List.singleton_append]
      simp only [parseFields]
      rw [if_neg (by simp),
        if_neg (by simp [lblRes, lblChain, List.isPrefixOf]),
        if_neg (by simp [lblURI, lblChain, List.isPrefixOf]),
        if_neg (by simp [lblVer, lblChain, List.isPrefixOf]),
        if_pos (by rw [List.isPrefixOf_iff_prefix]; exact List.prefix_append _ _),
        List.drop_left]

theorem parseFields_nonce (n : Str) (rest res : List Str) (inp : SignInInput) :
    parseFields ((lblNonce ++ n) :: rest) false res inp =
      parseFields rest false res { inp with nonce := n } := by
  simp only [parseFields]
  rw [if_neg (by simp),
    if_neg (by simp [lblRes, lblNonce, List.isPrefixOf]),
    if_neg (by simp [lblURI, lblNonce, List.isPrefixOf]),
    if_neg (by simp [lblVer, lblNonce, List.isPrefixOf]),
    if_neg (by simp [lblChain, lblNonce, List.isPrefixOf]),
    if_pos (by rw [List.isPrefixOf_iff_prefix]; exact List.prefix_append _ _),
    List.drop_left]

theorem parseFields_issued (t : Str) (rest res : List Str) (inp : SignInInput) :
    parseFields ((lblIssued ++ t) :: rest) false res inp =
      parseFields rest false res { inp with issuedAt := t } := by
  simp only [parseFields]
  rw [if_neg (by simp),
    if_neg (by simp [lblRes, lblIssued, List.isPrefixOf]),
    if_neg (by simp [lblURI, lblIssued, List.isPrefixOf]),
    if_neg (by simp [lblVer, lblIssued, List.isPrefixOf]),
    if_neg (by simp [lblChain, lblIssued, List.isPrefixOf]),
    if_neg (by simp [lblNonce, lblIssued, List.isPrefixOf]),
    if_pos (by rw [List.isPrefixOf_iff_prefix]; exact List.prefix_append _ _),
    List.drop_left]

theorem parseFields_exp (o : Option Str) (rest res : List Str) (inp : SignInInput)
    (ho : validOpt o = true) (hinp : inp.expirationTime = none) :
    parseFields (optLines lblExp o ++ rest) false res inp =
      parseFields rest false res { inp with expirationTime := o } := by
  cases o with
  | none => rw [show optLines lblExp none = [] from rfl, List.nil_append, ← hinp]
  | some v =>
      simp only [validOpt, Bool.and_eq_true, decide_eq_true_eq] at ho
      rw [show optLines lblExp (some v) = [lblExp ++ v] from by simp [optLines, ho.1],
        List.singleton_append]
      simp only [parseFields]
      rw [if_neg (by simp),
        if_neg (by simp [lblRes, lblExp, List.isPrefixOf]),
        if_neg (by simp [lblURI, lblExp, List.isPrefixOf]),
        if_neg (by simp [lblVer, lblExp, List.isPrefixOf]),
        if_neg (by simp [lblChain, lblExp, List.isPrefixOf]),
        if_neg (by simp [lblNonce, lblExp, List.isPrefixOf]),
        if_neg (by simp [lblIssued, lblExp, List.isPrefixOf]),
        if_pos (by rw [List.isPrefixOf_iff_prefix]; exact List.prefix_append _ _),
        List.drop_left]

theorem parseFields_nb (o : Option Str) (rest res : List Str) (inp : SignInInput)
    (ho : validOpt o = true) (hinp : inp.notBefore = none) :
    parseFields (optLines lblNB o ++ rest) false res inp =
      parseFields rest false res { inp with notBefore := o } := by
  cases o with
  | none => rw [show optLines lblNB none = [] from rfl, List.nil_append, ← hinp]
  | some v =>
      simp only [validOpt, Bool.and_eq_true, decide_eq_true_eq] at ho
      rw [show optLines lblNB (some v) = [lblNB ++ v] from by simp [optLines, ho.1],
        List.singleton_append]
      simp only [parseFields]
      rw [if_neg (by simp),
        if_neg (by simp [lblRes, lblNB, List.isPrefixOf]),
        if_neg (by simp [lblURI, lblNB, List.isPrefixOf]),
        if_neg (by simp [lblVer, lblNB, List.isPrefixOf]),
        if_neg (by simp [lblChain, lblNB, List.isPrefixOf]),
        if_neg (by simp [lblNonce, lblNB, List.isPrefixOf]),
        if_neg (by simp [lblIssued, lblNB, List.isPrefixOf]),
        if_neg (by simp [lblExp, lblNB, List.isPrefixOf]),
        if_pos (by rw [List.isPrefixOf_iff_prefix]; exact List.prefix_append _ _),
        List.drop_left]

theorem parseFields_req (o : Option Str) (rest res : List Str) (inp : SignInInput)
    (ho : validOpt o = true) (hinp : inp.requestID = none) :
    parseFields (optLines lblReqID o ++ rest) false res inp =
      parseFields rest false res { inp with requestID := o } := by
  cases o with
  | none => rw [show optLines lblReqID none = [] from rfl, List.nil_append, ← hinp]
  | some v =>
      simp only [validOpt, Bool.and_eq_true, decide_eq_true_eq] at ho
      rw [show optLines lblReqID (some v) = [lblReqID ++ v] from by
          simp [optLines, ho.1],
        List.singleton_append]
      simp only [parseFields]
      rw [if_neg (by simp),
        if_neg (by simp [lblRes, lblReqID, List.isPrefixOf]),
        if_neg (by simp [lblURI, lblReqID, List.isPrefixOf]),
        if_neg (by simp [lblVer, lblReqID, List.isPrefixOf]),
        if_neg (by simp [lblChain, lblReqID, List.isPrefixOf]),
        if_neg (by simp [lblNonce, lblReqID, List.isPrefixOf]),
        if_neg (by simp [lblIssued, lblReqID, List.isPrefixOf]),
        if_neg (by simp [lblExp, lblReqID, List.isPrefixOf]),
        if_neg (by simp [lblNB, lblReqID, List.isPrefixOf]),
        if_pos (by rw [List.isPrefixOf_iff_prefix]; exact List.prefix_append _ _),
        List.drop_left]

theorem parseFields_dash_lines (rs : List Str) (res : List Str) (inp : SignInInput) :
    parseFields (rs.map (fun r => lblDash ++ r)) true res inp = (inp, res ++ rs) := by
  induction rs generalizing res with
  | nil => simp [parseFields]
  | cons r rest ih =>
      rw [List.map_cons]
      simp only [parseFields]
      rw [if_pos ⟨by rw [List.isPrefixOf_iff_prefix]; exact List.prefix_append _ _,
        trivial⟩]
      rw [List.drop_left, ih (res ++ [r])]
      simp

theorem parseFields_res (rs : List Str) (res : List Str) (inp : SignInInput) :
    parseFields (if rs = [] then [] else lblRes :: rs.map (fun r => lblDash ++ r))
      false res inp = (inp, res ++ rs) := by
  by_cases h : rs = []
  · subst h
    simp [parseFields]
  · rw [if_neg h]
    simp only [parseFields]
    rw [if_neg (by simp),
      if_pos (by rw [List.isPrefixOf_iff_prefix])]
    exact parseFields_dash_lines rs res inp

end Siws
